import Mathlib

set_option linter.unusedSectionVars false

/-!
Shallow embedding of `penaltymodel/classes/binary_quadratic_model.py`.

Python `dict`s are modelled as insertion-ordered association lists (`Dict`):
first-match lookup, `Dict.insert` replaces the value at an existing key in
place and otherwise appends, `Dict.erase` deletes, mirroring CPython
semantics.  Variables are natural numbers, biases are rationals (the float
literals `2.`, `4.`, `.5`, `.25` appearing in the source are exact binary
values, so the coefficient algebra is exact).  Python exceptions are
modelled by `Except PyError`.
-/

/-- The kinds of Python exceptions raised by the modelled code. -/
inductive PyError : Type
  | typeError
  | valueError
  | keyError
  | runtimeError
deriving DecidableEq

/-- An insertion-ordered association list, modelling a Python `dict`. -/
abbrev Dict (α β : Type) := List (α × β)

namespace Dict

/-- First-match lookup, `d[k]` / `d.get(k)`. -/
def lookup {α β : Type} [DecidableEq α] : Dict α β → α → Option β
  | [], _ => none
  | kv :: rest, a => if kv.1 = a then some kv.2 else lookup rest a

/-- `k in d`. -/
def member {α β : Type} [DecidableEq α] (d : Dict α β) (a : α) : Bool :=
  (lookup d a).isSome

/-- `d[k] = v`: replace the value at an existing key in place, else append. -/
def insert {α β : Type} [DecidableEq α] : Dict α β → α → β → Dict α β
  | [], a, b => [(a, b)]
  | kv :: rest, a, b => if kv.1 = a then (a, b) :: rest else kv :: insert rest a b

/-- `del d[k]` (no error when the key is absent; all modelled deletions are
of present keys). -/
def erase {α β : Type} [DecidableEq α] : Dict α β → α → Dict α β
  | [], _ => []
  | kv :: rest, a => if kv.1 = a then rest else kv :: erase rest a

/-- `list(d)`: the keys in insertion order. -/
def keys {α β : Type} (d : Dict α β) : List α := d.map Prod.fst

/-- `d[k]` as a fallible read, raising `KeyError` when absent. -/
def getItem {α β : Type} [DecidableEq α] (d : Dict α β) (a : α) :
    Except PyError β :=
  match lookup d a with
  | some b => .ok b
  | none => .error .keyError

/-- A `dict` comprehension or `dict(...)` built from a list of key/value
pairs: later duplicate keys overwrite earlier ones. -/
def comp {α β : Type} [DecidableEq α] (l : List (α × β)) : Dict α β :=
  l.foldl (fun d kv => insert d kv.1 kv.2) []

/-- `sum(d.values())` in iteration order. -/
def sumValues {α : Type} (d : Dict α ℚ) : ℚ :=
  d.foldl (fun a kv => a + kv.2) 0

/-- Python `dict` equality: same keys with equal values (order-insensitive). -/
def beqBy {α β : Type} [DecidableEq α] (valEq : β → β → Bool)
    (d1 d2 : Dict α β) : Bool :=
  d1.all (fun kv =>
    match lookup d2 kv.1 with
    | some v2 => valEq kv.2 v2
    | none => false) &&
  d2.all (fun kv => member d1 kv.1)

/-- Python `dict` equality for decidable value types. -/
def beq {α β : Type} [DecidableEq α] [DecidableEq β] (d1 d2 : Dict α β) : Bool :=
  beqBy (fun a b => decide (a = b)) d1 d2

end Dict

/-- `mapping.get(v, v)`. -/
def mapGet (mapping : Dict Nat Nat) (v : Nat) : Nat :=
  (Dict.lookup mapping v).getD v

/-- The two-valued variable-type enumeration (`Vartype.SPIN`,
`Vartype.BINARY`).  The enumeration module itself is not among the provided
sources; see `normalizeVartype`. -/
inductive Vartype : Type
  | SPIN
  | BINARY
deriving DecidableEq

/-- The tokens a caller may pass as a `vartype` argument. -/
inductive VartypeInput : Type
  /-- An enumeration member (`Vartype.SPIN` / `Vartype.BINARY`). -/
  | tok (vt : Vartype)
  /-- A string, looked up by enumeration-member name. -/
  | name (s : String)
  /-- A set of integers, matched against the defining value sets. -/
  | valueSet (s : List Int)
  /-- Any other object, e.g. the integer `147`. -/
  | unknown
deriving DecidableEq

/-- Set equality of integer lists (Python `set` comparison). -/
def setEqInt (a b : List Int) : Bool :=
  a.all (fun x => b.contains x) && b.all (fun x => a.contains x)

/-- Modelled from the spec: the `Vartype` enumeration module
(`penaltymodel/classes/vartypes.py`) is not part of the provided sources.
Per the spec, "Construction from a string name, from the canonical token,
or from the defining value-set {-1,1}/{0,1} must all normalize to the same
two-valued enumeration; any other input is a type error."  This models the
`try: Vartype[...] / Vartype(...) except (ValueError, KeyError): raise
TypeError` pattern of the source, which converts any lookup failure into a
`TypeError`. -/
def normalizeVartype : VartypeInput → Except PyError Vartype
  | .tok vt => .ok vt
  | .name s =>
      if s = "SPIN" then .ok .SPIN
      else if s = "BINARY" then .ok .BINARY
      else .error .typeError
  | .valueSet s =>
      if setEqInt s [-1, 1] then .ok .SPIN
      else if setEqInt s [0, 1] then .ok .BINARY
      else .error .typeError
  | .unknown => .error .typeError

/-- The `BinaryQuadraticModel` instance state after a successful
`__init__`. -/
structure BinaryQuadraticModel : Type where
  linear : Dict Nat ℚ
  quadratic : Dict (Nat × Nat) ℚ
  offset : ℚ
  vartype : Vartype
  adj : Dict Nat (Dict Nat ℚ)
deriving DecidableEq

namespace BinaryQuadraticModel

/-- The validation pass
`all(u in linear and v in linear for u, v in quadratic)` of `__init__`:
a key that is not a 2-tuple fails tuple unpacking (a `ValueError`, re-raised
as `ValueError("keys of quadratic must be 2-tuples")`), and a key whose
endpoints are not in `linear` raises the same exception kind.  Returns the
keys as pairs on success. -/
def checkQuadKeys (linear : Dict Nat ℚ) :
    Dict (List Nat) ℚ → Except PyError (Dict (Nat × Nat) ℚ)
  | [] => .ok []
  | (k, b) :: rest =>
    match k with
    | [u, v] =>
        if Dict.member linear u && Dict.member linear v then do
          let r ← checkQuadKeys linear rest
          .ok ((( u, v), b) :: r)
        else .error .valueError
    | _ => .error .valueError

/-- One iteration of the adjacency-building loop of `__init__`:
self-loops and already-present reverse pairs raise `ValueError`, otherwise
`adj[u][v] = adj[v][u] = bias`. -/
def adjStep (adj : Dict Nat (Dict Nat ℚ)) (kv : (Nat × Nat) × ℚ) :
    Except PyError (Dict Nat (Dict Nat ℚ)) := do
  let u := kv.1.1
  let v := kv.1.2
  let bias := kv.2
  if u = v then .error .valueError
  else do
    let au ← Dict.getItem adj u
    if Dict.member au v then .error .valueError
    else do
      let adj1 := Dict.insert adj u (Dict.insert au v bias)
      let av ← Dict.getItem adj1 v
      if Dict.member av u then .error .valueError
      else .ok (Dict.insert adj1 v (Dict.insert av u bias))

/-- The adjacency-building loop of `__init__`. -/
def buildAdj (adj : Dict Nat (Dict Nat ℚ)) (q : Dict (Nat × Nat) ℚ) :
    Except PyError (Dict Nat (Dict Nat ℚ)) :=
  q.foldlM adjStep adj

/-- `BinaryQuadraticModel.__init__`: vartype normalization, quadratic-key
validation, adjacency construction.  `quadratic` keys arrive as raw lists
(Python tuples of unknown arity). -/
def bqmInit (linear : Dict Nat ℚ) (quadratic : Dict (List Nat) ℚ)
    (offset : ℚ) (vt : VartypeInput) : Except PyError BinaryQuadraticModel := do
  let vartype ← normalizeVartype vt
  let qpairs ← checkQuadKeys linear quadratic
  let adj0 := Dict.comp (linear.map (fun kv => (kv.1, ([] : Dict Nat ℚ))))
  let adj ← buildAdj adj0 qpairs
  .ok ⟨linear, qpairs, offset, vartype, adj⟩

/-- Re-keys a pair-keyed quadratic dict with raw list keys, for the internal
constructor calls that pass an already-validated pair-keyed dict. -/
def toRaw (q : Dict (Nat × Nat) ℚ) : Dict (List Nat) ℚ :=
  q.map (fun kv => ([kv.1.1, kv.1.2], kv.2))

/-- `__eq__`: equal vartype, linear, adjacency (not raw quadratic) and
offset. -/
def bqmEq (m1 m2 : BinaryQuadraticModel) : Bool :=
  if m1.vartype = m2.vartype then
    Dict.beq m1.linear m2.linear &&
    Dict.beqBy Dict.beq m1.adj m2.adj &&
    decide (m1.offset = m2.offset)
  else false

/-- `energy(sample)`: offset plus linear and quadratic contributions; a
missing sample entry raises `KeyError`. -/
def energy (m : BinaryQuadraticModel) (sample : Dict Nat ℚ) :
    Except PyError ℚ := do
  let sumL ← m.linear.foldlM (fun acc kv => do
      let s ← Dict.getItem sample kv.1
      pure (acc + kv.2 * s)) (0 : ℚ)
  let sumQ ← m.quadratic.foldlM (fun acc kv => do
      let su ← Dict.getItem sample kv.1.1
      let sv ← Dict.getItem sample kv.1.2
      pure (acc + kv.2 * su * sv)) (0 : ℚ)
  .ok (m.offset + sumL + sumQ)

/-- `_spin_to_binary`: `new_linear = {v: 2*bias}`, then for each quadratic
entry `new_quadratic[(u,v)] = 4*bias`, `new_linear[u] -= 2*bias`,
`new_linear[v] -= 2*bias`; offset gains `sum(J) - sum(h)`. -/
def _spin_to_binary (m : BinaryQuadraticModel) :
    Except PyError (Dict Nat ℚ × Dict (Nat × Nat) ℚ × ℚ) := do
  let nl0 := Dict.comp (m.linear.map (fun kv => (kv.1, 2 * kv.2)))
  let st ← m.quadratic.foldlM
    (fun (st : Dict Nat ℚ × Dict (Nat × Nat) ℚ) kv => do
      let nq := Dict.insert st.2 kv.1 (4 * kv.2)
      let lu ← Dict.getItem st.1 kv.1.1
      let nl := Dict.insert st.1 kv.1.1 (lu - 2 * kv.2)
      let lv ← Dict.getItem nl kv.1.2
      let nl := Dict.insert nl kv.1.2 (lv - 2 * kv.2)
      pure (nl, nq)) (nl0, ([] : Dict (Nat × Nat) ℚ))
  let offset := m.offset + Dict.sumValues m.quadratic - Dict.sumValues m.linear
  .ok (st.1, st.2, offset)

/-- `_binary_to_spin`: `h[u] = bias/2` accumulating `linear_offset`, then
for each quadratic entry `J[(u,v)] = bias/4`, `h[u] += bias/4`,
`h[v] += bias/4` accumulating `quadratic_offset`; offset gains
`linear_offset/2 + quadratic_offset/4`. -/
def _binary_to_spin (m : BinaryQuadraticModel) :
    Except PyError (Dict Nat ℚ × Dict (Nat × Nat) ℚ × ℚ) := do
  let st0 := m.linear.foldl
    (fun (st : Dict Nat ℚ × ℚ) kv =>
      (Dict.insert st.1 kv.1 ((1 / 2 : ℚ) * kv.2), st.2 + kv.2))
    (([] : Dict Nat ℚ), (0 : ℚ))
  let st ← m.quadratic.foldlM
    (fun (st : Dict Nat ℚ × Dict (Nat × Nat) ℚ × ℚ) kv => do
      let J := Dict.insert st.2.1 kv.1 ((1 / 4 : ℚ) * kv.2)
      let hu ← Dict.getItem st.1 kv.1.1
      let h := Dict.insert st.1 kv.1.1 (hu + (1 / 4 : ℚ) * kv.2)
      let hv ← Dict.getItem h kv.1.2
      let h := Dict.insert h kv.1.2 (hv + (1 / 4 : ℚ) * kv.2)
      pure (h, J, st.2.2 + kv.2)) (st0.1, ([] : Dict (Nat × Nat) ℚ), (0 : ℚ))
  let offset := m.offset + (1 / 2 : ℚ) * st0.2 + (1 / 4 : ℚ) * st.2.2
  .ok (st.1, st.2.1, offset)

/-- `copy()`: reconstruct through the constructor from (copies of) the own
fields. -/
def copy (m : BinaryQuadraticModel) : Except PyError BinaryQuadraticModel :=
  bqmInit m.linear (toRaw m.quadratic) m.offset (.tok m.vartype)

/-- `change_vartype(vartype)`: normalize the target, return a copy when it
matches, else convert and rebuild through the constructor. -/
def change_vartype (m : BinaryQuadraticModel) (vt : VartypeInput) :
    Except PyError BinaryQuadraticModel := do
  let vartype ← normalizeVartype vt
  if vartype = m.vartype then copy m
  else if m.vartype = .SPIN ∧ vartype = .BINARY then do
    let r ← _spin_to_binary m
    bqmInit r.1 (toRaw r.2.1) r.2.2 (.tok .BINARY)
  else if m.vartype = .BINARY ∧ vartype = .SPIN then do
    let r ← _binary_to_spin m
    bqmInit r.1 (toRaw r.2.1) r.2.2 (.tok .SPIN)
  else .error .runtimeError

/-- `as_ising()`: pass a SPIN model through, convert a BINARY one. -/
def as_ising (m : BinaryQuadraticModel) :
    Except PyError (Dict Nat ℚ × Dict (Nat × Nat) ℚ × ℚ) :=
  if m.vartype = .SPIN then .ok (m.linear, m.quadratic, m.offset)
  else if m.vartype ≠ .BINARY then .error .runtimeError
  else _binary_to_spin m

/-- `as_qubo()`: for a BINARY model dump the linear biases onto the
diagonal; for a SPIN model convert first and fold the converted linear
biases onto the diagonal via `dict.update`. -/
def as_qubo (m : BinaryQuadraticModel) :
    Except PyError (Dict (Nat × Nat) ℚ × ℚ) :=
  if m.vartype = .BINARY then
    let qubo := m.linear.foldl
      (fun q kv => Dict.insert q (kv.1, kv.1) kv.2) ([] : Dict (Nat × Nat) ℚ)
    let qubo := m.quadratic.foldl (fun q kv => Dict.insert q kv.1 kv.2) qubo
    .ok (qubo, m.offset)
  else if m.vartype ≠ .SPIN then .error .runtimeError
  else do
    let r ← _spin_to_binary m
    let diag := Dict.comp (r.1.map (fun kv => ((kv.1, kv.1), kv.2)))
    let q := diag.foldl (fun q kv => Dict.insert q kv.1 kv.2) r.2.1
    .ok (q, r.2.2)

/-- The first free intermediate label at or above `c`:
`lbl = next(counter); while lbl in bad: lbl = next(counter)`. -/
def nextFree (c : Nat) (bad : List Nat) : Nat :=
  match (List.range (bad.length + 1)).find? (fun i => !(bad.contains (c + i))) with
  | some i => c + i
  | none => c + bad.length + 1

/-- The intermediate-relabeling construction of the overlapping in-place
branch: a counter starting at `2*len(self)` generates labels avoiding the
old and new label sets; self-labels are elided; non-conflicting renames go
directly into `old_to_intermediate`.  State: (counter, old_to_intermediate,
intermediate_to_new). -/
def buildIntermediates (mapping : Dict Nat Nat)
    (old_labels new_labels : List Nat) (start : Nat) :
    Nat × Dict Nat Nat × Dict Nat Nat :=
  mapping.foldl
    (fun st kv =>
      if kv.1 = kv.2 then st
      else if new_labels.contains kv.1 || old_labels.contains kv.2 then
        let lbl := nextFree st.1 (new_labels ++ old_labels)
        (lbl + 1, Dict.insert st.2.1 kv.1 lbl, Dict.insert st.2.2 lbl kv.2)
      else
        (st.1, Dict.insert st.2.1 kv.1 kv.2, st.2.2))
    (start, ([] : Dict Nat Nat), ([] : Dict Nat Nat))

/-- One iteration of the in-place linear/adjacency relabeling loop
(`for old in list(linear)`), acting on the `(linear, adj)` state. -/
def relabelLinAdjStep (mapping : Dict Nat Nat)
    (st : Dict Nat ℚ × Dict Nat (Dict Nat ℚ)) (old : Nat) :
    Except PyError (Dict Nat ℚ × Dict Nat (Dict Nat ℚ)) :=
  match Dict.lookup mapping old with
  | none => .ok st
  | some new => do
    let hv ← Dict.getItem st.1 old
    let linear := Dict.insert st.1 new hv
    let aold ← Dict.getItem st.2 old
    let adj := Dict.insert st.2 new aold
    let adj ← (Dict.keys aold).foldlM (fun adj u => do
        let au ← Dict.getItem adj u
        let buo ← Dict.getItem au old
        pure (Dict.insert adj u (Dict.erase (Dict.insert au new buo) old))) adj
    .ok (Dict.erase linear old, Dict.erase adj old)

/-- One iteration of the in-place quadratic relabeling loop
(`for old_u, old_v in list(quadratic)`). -/
def relabelQuadStep (mapping : Dict Nat Nat)
    (q : Dict (Nat × Nat) ℚ) (p : Nat × Nat) :
    Except PyError (Dict (Nat × Nat) ℚ) :=
  if !(Dict.member mapping p.1) && !(Dict.member mapping p.2) then .ok q
  else
    let new_u := mapGet mapping p.1
    let new_v := mapGet mapping p.2
    if Dict.member q (p.2, p.1) then do
      let b ← Dict.getItem q (p.2, p.1)
      .ok (Dict.erase (Dict.insert q (new_v, new_u) b) (p.2, p.1))
    else if Dict.member q (p.1, p.2) then do
      let b ← Dict.getItem q (p.1, p.2)
      .ok (Dict.erase (Dict.insert q (new_u, new_v) b) (p.1, p.2))
    else .error .runtimeError

/-- `relabel_variables(mapping, copy)`.  The fuel argument bounds the
recursion depth of the overlapping in-place branch; the branch's two
recursive calls always use mappings with disjoint key and value sets, so
they take the non-recursive path and fuel 2 reproduces the source exactly
(the fuel-exhaustion branch is unreachable from `relabel_variables`). -/
def relabelFuel : Nat → BinaryQuadraticModel → Dict Nat Nat → Bool →
    Except PyError BinaryQuadraticModel
  | 0, _, _, _ => .error .runtimeError
  | fuel + 1, m, mapping, copy =>
    let old_labels := Dict.keys mapping
    let new_labels := mapping.map Prod.snd
    if new_labels.any (fun v => Dict.member m.linear v && !(old_labels.contains v)) then
      .error .valueError
    else if copy then
      bqmInit (Dict.comp (m.linear.map (fun kv => (mapGet mapping kv.1, kv.2))))
        (toRaw (Dict.comp (m.quadratic.map (fun kv =>
          ((mapGet mapping kv.1.1, mapGet mapping kv.1.2), kv.2)))))
        m.offset (.tok m.vartype)
    else
      let shared := old_labels.filter (fun v => new_labels.contains v)
      if !shared.isEmpty then
        let st := buildIntermediates mapping old_labels new_labels
          (2 * m.linear.length)
        do
          let m1 ← relabelFuel fuel m st.2.1 false
          relabelFuel fuel m1 st.2.2 false
      else do
        let la ← (Dict.keys m.linear).foldlM (relabelLinAdjStep mapping)
          (m.linear, m.adj)
        let quad ← (Dict.keys m.quadratic).foldlM (relabelQuadStep mapping)
          m.quadratic
        .ok ⟨la.1, quad, m.offset, m.vartype, la.2⟩

/-- `relabel_variables(mapping, copy)`. -/
def relabel_variables (m : BinaryQuadraticModel) (mapping : Dict Nat Nat)
    (copy : Bool) : Except PyError BinaryQuadraticModel :=
  relabelFuel 2 m mapping copy

/-- Sum of the quadratic biases incident to `v` (an entry with both
endpoints equal to `v` counts twice, matching the two in-place updates the
source performs). -/
def incSum (q : Dict (Nat × Nat) ℚ) (v : Nat) : ℚ :=
  (q.map (fun kv =>
    (if kv.1.1 = v then kv.2 else 0) + (if kv.1.2 = v then kv.2 else 0))).sum

/-- A model is valid when it is a fixed point of its own constructor: the
constructor stores `linear`, `quadratic`, `offset` and `vartype` verbatim
and derives `adj`, so this says exactly that the model could have been
produced by a successful `__init__`. -/
def Valid (m : BinaryQuadraticModel) : Prop :=
  bqmInit m.linear (toRaw m.quadratic) m.offset (.tok m.vartype) = .ok m

/-- Structural sanity of a quadratic dict relative to a linear dict: both
endpoints of every key are variables, no self-loops, and no unordered pair
occurs twice (in either orientation). -/
def goodQuad (linear : Dict Nat ℚ) (q : Dict (Nat × Nat) ℚ) : Prop :=
  (∀ kv ∈ q, Dict.member linear kv.1.1 = true ∧
    Dict.member linear kv.1.2 = true ∧ kv.1.1 ≠ kv.1.2) ∧
  q.Pairwise (fun kv1 kv2 =>
    ¬(kv1.1 = kv2.1 ∨ kv1.1 = (kv2.1.2, kv2.1.1)))

/-- A well-formed model: unique variable keys (Python `dict`s are
key-unique), a structurally sane quadratic dict, and constructor-fixed-point
validity. -/
def WfBQM (m : BinaryQuadraticModel) : Prop :=
  (Dict.keys m.linear).Nodup ∧ goodQuad m.linear m.quadratic ∧ Valid m

end BinaryQuadraticModel

/-! ### Basic lemmas about `Dict` operations -/

namespace Dict

variable {α β : Type} [DecidableEq α]

@[simp] theorem lookup_nil (a : α) : lookup ([] : Dict α β) a = none := rfl

theorem lookup_cons (kv : α × β) (d : Dict α β) (a : α) :
    lookup (kv :: d) a = if kv.1 = a then some kv.2 else lookup d a := rfl

@[simp] theorem lookup_insert_self (d : Dict α β) (a : α) (b : β) :
    lookup (insert d a b) a = some b := by
  induction d with
  | nil => simp [insert, lookup]
  | cons kv rest ih =>
    by_cases h : kv.1 = a
    · simp [insert, h, lookup]
    · simp [insert, h, lookup_cons, ih]

theorem lookup_insert_ne (d : Dict α β) (a a' : α) (b : β) (h : a' ≠ a) :
    lookup (insert d a b) a' = lookup d a' := by
  have h' : a ≠ a' := fun hh => h hh.symm
  induction d with
  | nil => simp [insert, lookup, h']
  | cons kv rest ih =>
    by_cases hk : kv.1 = a
    · subst hk
      simp [insert, lookup_cons, h']
    · simp only [insert, if_neg hk]
      rw [lookup_cons, lookup_cons, ih]

theorem member_eq_true_iff (d : Dict α β) (a : α) :
    member d a = true ↔ ∃ b, lookup d a = some b := by
  unfold member
  cases h : lookup d a <;> simp [h, Option.isSome]

theorem member_eq_false_iff (d : Dict α β) (a : α) :
    member d a = false ↔ lookup d a = none := by
  unfold member
  cases h : lookup d a <;> simp [h, Option.isSome]

theorem lookup_mem {d : Dict α β} {a : α} {b : β} (h : lookup d a = some b) :
    (a, b) ∈ d := by
  induction d with
  | nil => simp [lookup] at h
  | cons kv rest ih =>
    rw [lookup_cons] at h
    by_cases hk : kv.1 = a
    · rw [if_pos hk] at h
      cases h
      have he : (a, kv.2) = kv := by
        rw [← hk]
      rw [he]
      exact List.mem_cons_self _ _
    · rw [if_neg hk] at h
      exact List.mem_cons_of_mem _ (ih h)

theorem lookup_isSome_of_mem {d : Dict α β} {a : α} {b : β} (h : (a, b) ∈ d) :
    ∃ c, lookup d a = some c := by
  induction d with
  | nil => cases h
  | cons kv rest ih =>
    rcases List.mem_cons.mp h with h | h
    · exact ⟨b, by rw [lookup_cons, ← h]; simp⟩
    · by_cases hk : kv.1 = a
      · exact ⟨kv.2, by simp [lookup_cons, hk]⟩
      · rcases ih h with ⟨c, hc⟩
        exact ⟨c, by simp [lookup_cons, hk, hc]⟩

theorem mem_lookup {d : Dict α β} {a : α} {b : β} (hn : (keys d).Nodup)
    (h : (a, b) ∈ d) : lookup d a = some b := by
  induction d with
  | nil => cases h
  | cons kv rest ih =>
    rw [keys, List.map_cons, List.nodup_cons] at hn
    rcases List.mem_cons.mp h with h | h
    · subst h
      simp [lookup_cons]
    · have hne : kv.1 ≠ a := by
        intro he
        exact hn.1 (he ▸ (List.mem_map.mpr ⟨(a, b), h, rfl⟩))
      simp only [lookup_cons, if_neg hne]
      exact ih hn.2 h

theorem mem_of_mem_keys {d : Dict α β} {a : α} (h : a ∈ keys d) :
    ∃ b, (a, b) ∈ d := by
  rcases List.mem_map.mp h with ⟨kv, hkv, he⟩
  exact ⟨kv.2, by rwa [← he, Prod.mk.eta] ⟩

theorem mem_keys_of_lookup {d : Dict α β} {a : α} {b : β}
    (h : lookup d a = some b) : a ∈ keys d :=
  List.mem_map.mpr ⟨(a, b), lookup_mem h, rfl⟩

theorem lookup_eq_none_of_not_mem_keys {d : Dict α β} {a : α}
    (h : a ∉ keys d) : lookup d a = none := by
  cases hl : lookup d a with
  | none => rfl
  | some b => exact absurd (mem_keys_of_lookup hl) h

theorem keys_insert_of_member (d : Dict α β) (a : α) (b : β)
    (h : member d a = true) : keys (insert d a b) = keys d := by
  induction d with
  | nil => simp [member, lookup] at h
  | cons kv rest ih =>
    by_cases hk : kv.1 = a
    · simp [insert, hk, keys]
    · have h' : member rest a = true := by
        rw [member_eq_true_iff] at h ⊢
        rcases h with ⟨c, hc⟩
        rw [lookup_cons, if_neg hk] at hc
        exact ⟨c, hc⟩
      simp only [insert, if_neg hk, keys, List.map_cons]
      rw [show List.map Prod.fst (insert rest a b) = keys (insert rest a b) from rfl,
        ih h']
      rfl

theorem insert_of_not_member (d : Dict α β) (a : α) (b : β)
    (h : member d a = false) : insert d a b = d ++ [(a, b)] := by
  induction d with
  | nil => simp [insert]
  | cons kv rest ih =>
    rw [member_eq_false_iff, lookup_cons] at h
    by_cases hk : kv.1 = a
    · rw [if_pos hk] at h
      cases h
    · rw [if_neg hk] at h
      simp only [insert, if_neg hk, List.cons_append]
      rw [ih (member_eq_false_iff _ _ |>.mpr h)]

theorem keys_insert_of_not_member (d : Dict α β) (a : α) (b : β)
    (h : member d a = false) : keys (insert d a b) = keys d ++ [a] := by
  rw [insert_of_not_member d a b h, keys, List.map_append]
  rfl

theorem keys_insert_nodup (d : Dict α β) (a : α) (b : β)
    (h : (keys d).Nodup) : (keys (insert d a b)).Nodup := by
  cases hm : member d a with
  | true => rwa [keys_insert_of_member d a b hm]
  | false =>
    rw [keys_insert_of_not_member d a b hm]
    rw [List.nodup_append]
    refine ⟨h, List.nodup_singleton a, ?_⟩
    intro x hx hx'
    rcases List.mem_singleton.mp hx' with rfl
    rcases mem_of_mem_keys hx with ⟨c, hc⟩
    rcases lookup_isSome_of_mem hc with ⟨e, he⟩
    rw [member_eq_false_iff] at hm
    rw [hm] at he
    cases he

theorem mem_insert {d : Dict α β} {a : α} {b : β} {kv : α × β}
    (h : kv ∈ insert d a b) : kv = (a, b) ∨ kv ∈ d := by
  induction d with
  | nil => simpa [insert] using h
  | cons kv' rest ih =>
    by_cases hk : kv'.1 = a
    · rw [insert, if_pos hk] at h
      rcases List.mem_cons.mp h with h | h
      · exact Or.inl h
      · exact Or.inr (List.mem_cons_of_mem _ h)
    · rw [insert, if_neg hk] at h
      rcases List.mem_cons.mp h with h | h
      · exact Or.inr (h ▸ List.mem_cons_self _ _)
      · rcases ih h with h | h
        · exact Or.inl h
        · exact Or.inr (List.mem_cons_of_mem _ h)

end Dict

namespace Dict

variable {α β : Type} [DecidableEq α]

theorem foldl_add_eq (d : Dict α ℚ) : ∀ init : ℚ,
    d.foldl (fun a kv => a + kv.2) init = init + (d.map Prod.snd).sum := by
  induction d with
  | nil => intro init; simp
  | cons kv rest ih =>
    intro init
    rw [List.foldl_cons, ih]
    simp [add_assoc]

theorem sumValues_eq (d : Dict α ℚ) : sumValues d = (d.map Prod.snd).sum := by
  rw [sumValues, foldl_add_eq]
  simp

@[simp] theorem sumValues_nil : sumValues ([] : Dict α ℚ) = 0 := rfl

theorem sumValues_cons (kv : α × ℚ) (d : Dict α ℚ) :
    sumValues (kv :: d) = kv.2 + sumValues d := by
  rw [sumValues_eq, sumValues_eq, List.map_cons, List.sum_cons]

theorem sumValues_insert (d : Dict α ℚ) (a : α) (b w : ℚ)
    (hn : (keys d).Nodup) (h : lookup d a = some w) :
    sumValues (insert d a b) = sumValues d - w + b := by
  induction d with
  | nil => simp [lookup] at h
  | cons kv rest ih =>
    rw [keys, List.map_cons, List.nodup_cons] at hn
    rw [lookup_cons] at h
    by_cases hk : kv.1 = a
    · rw [if_pos hk] at h
      cases h
      rw [insert, if_pos hk, sumValues_cons, sumValues_cons]
      ring
    · rw [if_neg hk] at h
      rw [insert, if_neg hk, sumValues_cons, sumValues_cons, ih hn.2 h]
      ring

theorem ext_of_keys_lookup {d1 d2 : Dict α β} (hk : keys d1 = keys d2)
    (hn : (keys d1).Nodup) (hl : ∀ a, lookup d1 a = lookup d2 a) :
    d1 = d2 := by
  induction d1 generalizing d2 with
  | nil =>
    cases d2 with
    | nil => rfl
    | cons kv rest => simp [keys] at hk
  | cons kv rest ih =>
    cases d2 with
    | nil => simp [keys] at hk
    | cons kv2 rest2 =>
      simp only [keys, List.map_cons, List.cons.injEq] at hk
      rw [keys, List.map_cons, List.nodup_cons] at hn
      have hv : kv.2 = kv2.2 := by
        have h1 := hl kv.1
        rw [lookup_cons, lookup_cons, if_pos rfl, if_pos hk.1.symm] at h1
        exact (Option.some.injEq _ _ ▸ h1 : _)
      have hrest : rest = rest2 := by
        apply ih hk.2 hn.2
        intro a
        by_cases ha : kv.1 = a
        · subst ha
          have h2 : kv.1 ∉ keys rest2 := by
            rw [keys, ← hk.2]
            exact hn.1
          rw [lookup_eq_none_of_not_mem_keys hn.1,
            lookup_eq_none_of_not_mem_keys h2]
        · have h1 := hl a
          rwa [lookup_cons, lookup_cons, if_neg ha, if_neg (hk.1 ▸ ha)] at h1
      calc kv :: rest = (kv.1, kv.2) :: rest := by rw [Prod.mk.eta]
        _ = (kv2.1, kv2.2) :: rest2 := by rw [hk.1, hv, hrest]
        _ = kv2 :: rest2 := by rw [Prod.mk.eta]

theorem comp_append_of_nodup : ∀ (l acc : Dict α β),
    (keys l).Nodup → (∀ a ∈ keys l, member acc a = false) →
    l.foldl (fun d kv => insert d kv.1 kv.2) acc = acc ++ l := by
  intro l
  induction l with
  | nil => intro acc _ _; simp
  | cons kv rest ih =>
    intro acc hn hdisj
    rw [keys, List.map_cons, List.nodup_cons] at hn
    rw [List.foldl_cons,
      insert_of_not_member acc kv.1 kv.2 (hdisj kv.1 (by simp [keys])),
      ih (acc ++ [(kv.1, kv.2)]) hn.2]
    · simp
    · intro a ha
      rw [member_eq_false_iff]
      cases hl : lookup (acc ++ [(kv.1, kv.2)]) a with
      | none => rfl
      | some c =>
        have hm := lookup_mem hl
        rcases List.mem_append.mp hm with hm | hm
        · rcases lookup_isSome_of_mem hm with ⟨e, he⟩
          have := hdisj a (List.mem_cons_of_mem _ ha)
          rw [member_eq_false_iff] at this
          rw [this] at he
          cases he
        · have he := List.mem_singleton.mp hm
          have ha2 : a = kv.1 := congrArg Prod.fst he
          exact absurd (ha2 ▸ ha) hn.1

theorem comp_eq_self (d : Dict α β) (hn : (keys d).Nodup) : comp d = d := by
  rw [comp, comp_append_of_nodup d [] hn]
  · simp
  · intro a _
    rfl

theorem keys_comp_nodup (l : List (α × β)) : (keys (comp l)).Nodup := by
  rw [comp]
  suffices h : ∀ acc : Dict α β, (keys acc).Nodup →
      (keys (l.foldl (fun d kv => insert d kv.1 kv.2) acc)).Nodup from
    h [] List.nodup_nil
  induction l with
  | nil => intro acc h; simpa
  | cons kv rest ih =>
    intro acc h
    rw [List.foldl_cons]
    exact ih _ (keys_insert_nodup acc kv.1 kv.2 h)

theorem mem_comp {l : List (α × β)} {kv : α × β} (h : kv ∈ comp l) : kv ∈ l := by
  rw [comp] at h
  suffices hgen : ∀ acc : Dict α β,
      kv ∈ l.foldl (fun d kv' => insert d kv'.1 kv'.2) acc → kv ∈ acc ∨ kv ∈ l by
    rcases hgen [] h with h' | h'
    · cases h'
    · exact h'
  clear h
  induction l with
  | nil => intro acc h; exact Or.inl h
  | cons kv' rest ih =>
    intro acc h
    rw [List.foldl_cons] at h
    rcases ih _ h with h' | h'
    · rcases mem_insert h' with h'' | h''
      · exact Or.inr (h'' ▸ List.mem_cons_self _ _)
      · exact Or.inl h''
    · exact Or.inr (List.mem_cons_of_mem _ h')

theorem lookup_map_values {γ : Type} (d : Dict α β) (f : α → β → γ) (a : α) :
    lookup (d.map (fun kv => (kv.1, f kv.1 kv.2))) a =
      (lookup d a).map (f a) := by
  induction d with
  | nil => simp [lookup]
  | cons kv rest ih =>
    by_cases hk : kv.1 = a
    · subst hk
      simp [lookup_cons]
    · simp only [List.map_cons, lookup_cons, if_neg hk, ih]

theorem keys_map_values {γ : Type} (d : Dict α β) (f : α → β → γ) :
    keys (d.map (fun kv => (kv.1, f kv.1 kv.2))) = keys d := by
  induction d with
  | nil => rfl
  | cons kv rest ih => simp only [keys, List.map_cons] at ih ⊢; rw [ih]

end Dict

/-! ### Reduction helpers for `Except` computations -/

@[simp] theorem exceptBind_ok {α β : Type} (x : α) (f : α → Except PyError β) :
    (Except.ok x >>= f) = f x := rfl

@[simp] theorem exceptBind_error {α β : Type} (e : PyError)
    (f : α → Except PyError β) :
    ((Except.error e : Except PyError α) >>= f) = Except.error e := rfl

@[simp] theorem exceptPure {α : Type} (x : α) :
    (pure x : Except PyError α) = Except.ok x := rfl

theorem exceptPureBind {α β : Type} (x : α) (f : α → Except PyError β) :
    ((pure x : Except PyError α) >>= f) = f x := rfl

namespace Dict

variable {α β : Type} [DecidableEq α]

theorem member_iff_mem_keys (d : Dict α β) (a : α) :
    member d a = true ↔ a ∈ keys d := by
  rw [member_eq_true_iff]
  constructor
  · rintro ⟨b, hb⟩
    exact mem_keys_of_lookup hb
  · intro h
    rcases mem_of_mem_keys h with ⟨b, hb⟩
    exact lookup_isSome_of_mem hb

theorem member_insert (d : Dict α β) (k a : α) (b : β) :
    member (insert d k b) a = (member d a || decide (k = a)) := by
  by_cases hk : k = a
  · subst hk
    simp [member, lookup_insert_self]
  · rw [member, lookup_insert_ne d k a b (fun hh => hk hh.symm)]
    simp [member, hk]

theorem member_comp_any (l : List (α × β)) (a : α) :
    member (comp l) a = l.any (fun kv => decide (kv.1 = a)) := by
  rw [comp]
  suffices h : ∀ acc : Dict α β, member (l.foldl (fun d kv => insert d kv.1 kv.2) acc) a =
      (member acc a || l.any (fun kv => decide (kv.1 = a))) by
    rw [h []]
    rfl
  induction l with
  | nil => intro acc; simp
  | cons kv rest ih =>
    intro acc
    rw [List.foldl_cons, ih, member_insert, List.any_cons]
    cases member acc a <;> simp [Bool.or_assoc, Bool.or_comm, Bool.or_left_comm]

end Dict

namespace BinaryQuadraticModel

/-- `v in adj[u]` as a single query. -/
def member2 (a : Dict Nat (Dict Nat ℚ)) (u v : Nat) : Bool :=
  match Dict.lookup a u with
  | some d => Dict.member d v
  | none => false

theorem member2_eq_true_iff (a : Dict Nat (Dict Nat ℚ)) (u v : Nat) :
    member2 a u v = true ↔
      ∃ d, Dict.lookup a u = some d ∧ Dict.member d v = true := by
  unfold member2
  cases h : Dict.lookup a u with
  | none => simp
  | some d => simp [h]

/-- Inversion of a successful adjacency-building step. -/
theorem adjStep_ok_inv {a a' : Dict Nat (Dict Nat ℚ)} {kv : (Nat × Nat) × ℚ}
    (h : adjStep a kv = .ok a') :
    ∃ au av, kv.1.1 ≠ kv.1.2 ∧
      Dict.lookup a kv.1.1 = some au ∧ Dict.lookup a kv.1.2 = some av ∧
      Dict.member au kv.1.2 = false ∧ Dict.member av kv.1.1 = false ∧
      a' = Dict.insert (Dict.insert a kv.1.1 (Dict.insert au kv.1.2 kv.2))
        kv.1.2 (Dict.insert av kv.1.1 kv.2) := by
  unfold adjStep at h
  by_cases hne : kv.1.1 = kv.1.2
  · rw [if_pos hne] at h
    cases h
  rw [if_neg hne] at h
  cases hau : Dict.lookup a kv.1.1 with
  | none => rw [Dict.getItem, hau] at h; cases h
  | some au =>
    rw [Dict.getItem, hau] at h
    simp only [exceptBind_ok] at h
    cases hmau : Dict.member au kv.1.2 with
    | true => rw [hmau] at h; cases h
    | false =>
      rw [hmau] at h
      simp only [Bool.false_eq_true, if_false] at h
      have hlv : Dict.lookup (Dict.insert a kv.1.1 (Dict.insert au kv.1.2 kv.2)) kv.1.2 =
          Dict.lookup a kv.1.2 :=
        Dict.lookup_insert_ne _ _ _ _ (fun hh => hne hh.symm)
      cases hav : Dict.lookup a kv.1.2 with
      | none => rw [Dict.getItem, hlv, hav] at h; cases h
      | some av =>
        rw [Dict.getItem, hlv, hav] at h
        simp only [exceptBind_ok] at h
        cases hmav : Dict.member av kv.1.1 with
        | true => rw [hmav] at h; cases h
        | false =>
          rw [hmav] at h
          simp only [Bool.false_eq_true, if_false] at h
          cases h
          exact ⟨au, av, hne, rfl, rfl, hmau, hmav, rfl⟩

/-- The forward direction: an adjacency-building step succeeds when both
endpoint rows exist, the pair is not a self-loop, and neither orientation is
already recorded. -/
theorem adjStep_ok {a : Dict Nat (Dict Nat ℚ)} {kv : (Nat × Nat) × ℚ}
    {au av : Dict Nat ℚ} (hne : kv.1.1 ≠ kv.1.2)
    (hau : Dict.lookup a kv.1.1 = some au)
    (hav : Dict.lookup a kv.1.2 = some av)
    (hmau : Dict.member au kv.1.2 = false)
    (hmav : Dict.member av kv.1.1 = false) :
    adjStep a kv = .ok (Dict.insert
      (Dict.insert a kv.1.1 (Dict.insert au kv.1.2 kv.2))
      kv.1.2 (Dict.insert av kv.1.1 kv.2)) := by
  unfold adjStep
  rw [if_neg hne, Dict.getItem, hau]
  simp only [exceptBind_ok, hmau, Bool.false_eq_true, if_false]
  rw [Dict.getItem, Dict.lookup_insert_ne _ _ _ _ (fun hh => hne hh.symm), hav]
  simp only [exceptBind_ok, hmav, Bool.false_eq_true, if_false]

theorem member2_some {a : Dict Nat (Dict Nat ℚ)} {u : Nat} {d : Dict Nat ℚ}
    (v : Nat) (hl : Dict.lookup a u = some d) :
    member2 a u v = Dict.member d v := by
  unfold member2
  rw [hl]

/-- Keys of the adjacency are unchanged by a successful step. -/
theorem adjStep_keys {a a' : Dict Nat (Dict Nat ℚ)} {kv : (Nat × Nat) × ℚ}
    (h : adjStep a kv = .ok a') : Dict.keys a' = Dict.keys a := by
  rcases adjStep_ok_inv h with ⟨au, av, hne, hau, hav, _, _, rfl⟩
  have h1 : Dict.member a kv.1.1 = true := by
    rw [Dict.member_eq_true_iff]
    exact ⟨au, hau⟩
  have h2 : Dict.member
      (Dict.insert a kv.1.1 (Dict.insert au kv.1.2 kv.2)) kv.1.2 = true := by
    rw [Dict.member_eq_true_iff]
    refine ⟨av, ?_⟩
    rw [Dict.lookup_insert_ne _ _ _ _ (fun hh => hne hh.symm)]
    exact hav
  rw [Dict.keys_insert_of_member _ _ _ h2, Dict.keys_insert_of_member _ _ _ h1]

/-- Characterization of recorded pairs after a successful step. -/
theorem adjStep_member2_iff {a a' : Dict Nat (Dict Nat ℚ)}
    {kv : (Nat × Nat) × ℚ} (h : adjStep a kv = .ok a') (x y : Nat) :
    member2 a' x y = true ↔
      (member2 a x y = true ∨ (x = kv.1.1 ∧ y = kv.1.2) ∨
        (x = kv.1.2 ∧ y = kv.1.1)) := by
  rcases adjStep_ok_inv h with ⟨au, av, hne, hau, hav, _, _, rfl⟩
  by_cases hxv : x = kv.1.2
  · have hlx : Dict.lookup (Dict.insert
        (Dict.insert a kv.1.1 (Dict.insert au kv.1.2 kv.2))
        kv.1.2 (Dict.insert av kv.1.1 kv.2)) x = some (Dict.insert av kv.1.1 kv.2) := by
      rw [hxv]
      exact Dict.lookup_insert_self _ _ _
    rw [member2_some y hlx, member2_some y (show Dict.lookup a x = some av by
      rw [hxv]; exact hav), Dict.member_insert]
    simp only [Bool.or_eq_true, decide_eq_true_eq]
    constructor
    · rintro (hb | hb)
      · exact Or.inl hb
      · exact Or.inr (Or.inr ⟨hxv, hb.symm⟩)
    · rintro (hb | ⟨hx1, _⟩ | ⟨_, hy1⟩)
      · exact Or.inl hb
      · exact absurd (hxv ▸ hx1) (Ne.symm hne)
      · exact Or.inr hy1.symm
  · by_cases hxu : x = kv.1.1
    · have hlx : Dict.lookup (Dict.insert
          (Dict.insert a kv.1.1 (Dict.insert au kv.1.2 kv.2))
          kv.1.2 (Dict.insert av kv.1.1 kv.2)) x = some (Dict.insert au kv.1.2 kv.2) := by
        rw [Dict.lookup_insert_ne _ _ _ _ hxv, hxu]
        exact Dict.lookup_insert_self _ _ _
      rw [member2_some y hlx, member2_some y (show Dict.lookup a x = some au by
        rw [hxu]; exact hau), Dict.member_insert]
      simp only [Bool.or_eq_true, decide_eq_true_eq]
      constructor
      · rintro (hb | hb)
        · exact Or.inl hb
        · exact Or.inr (Or.inl ⟨hxu, hb.symm⟩)
      · rintro (hb | ⟨_, hy2⟩ | ⟨hx2, _⟩)
        · exact Or.inl hb
        · exact Or.inr hy2.symm
        · exact absurd (hxu ▸ hx2) hne
    · have hlx : Dict.lookup (Dict.insert
          (Dict.insert a kv.1.1 (Dict.insert au kv.1.2 kv.2))
          kv.1.2 (Dict.insert av kv.1.1 kv.2)) x = Dict.lookup a x := by
        rw [Dict.lookup_insert_ne _ _ _ _ hxv, Dict.lookup_insert_ne _ _ _ _ hxu]
      have hsame : member2 (Dict.insert
          (Dict.insert a kv.1.1 (Dict.insert au kv.1.2 kv.2))
          kv.1.2 (Dict.insert av kv.1.1 kv.2)) x y = member2 a x y := by
        unfold member2
        rw [hlx]
      rw [hsame]
      simp [hxu, hxv]

/-- Monotonicity: a successful step never removes a recorded pair. -/
theorem adjStep_member2_mono {a a' : Dict Nat (Dict Nat ℚ)}
    {kv : (Nat × Nat) × ℚ} (h : adjStep a kv = .ok a') {x y : Nat}
    (hm : member2 a x y = true) : member2 a' x y = true :=
  (adjStep_member2_iff h x y).mpr (Or.inl hm)

/-- A step on a pair with both rows present fails only with `ValueError`. -/
theorem adjStep_err_kind {a : Dict Nat (Dict Nat ℚ)} {kv : (Nat × Nat) × ℚ}
    (hu : Dict.member a kv.1.1 = true) (hv : Dict.member a kv.1.2 = true) :
    (∃ a', adjStep a kv = .ok a') ∨ adjStep a kv = .error .valueError := by
  rcases (Dict.member_eq_true_iff _ _).mp hu with ⟨au, hau⟩
  rcases (Dict.member_eq_true_iff _ _).mp hv with ⟨av, hav⟩
  by_cases hne : kv.1.1 = kv.1.2
  · right
    unfold adjStep
    rw [if_pos hne]
  cases hmau : Dict.member au kv.1.2 with
  | true =>
    right
    unfold adjStep
    rw [if_neg hne, Dict.getItem, hau]
    simp [hmau]
  | false =>
    cases hmav : Dict.member av kv.1.1 with
    | true =>
      right
      unfold adjStep
      rw [if_neg hne, Dict.getItem, hau]
      simp only [exceptBind_ok, hmau, Bool.false_eq_true, if_false]
      rw [Dict.getItem, Dict.lookup_insert_ne _ _ _ _ (fun hh => hne hh.symm), hav]
      simp [hmav]
    | false =>
      exact Or.inl ⟨_, adjStep_ok hne hau hav hmau hmav⟩

end BinaryQuadraticModel

namespace Dict

theorem member_eq_any {α β : Type} [DecidableEq α] (d : Dict α β) (a : α) :
    member d a = d.any (fun kv => decide (kv.1 = a)) := by
  induction d with
  | nil => rfl
  | cons kv rest ih =>
    rw [List.any_cons, ← ih]
    by_cases hk : kv.1 = a
    · simp [member, lookup_cons, hk]
    · simp [member, lookup_cons, hk]

end Dict

namespace BinaryQuadraticModel

/-- The initial adjacency `{v: {} for v in linear}`. -/
def adj0 (linear : Dict Nat ℚ) : Dict Nat (Dict Nat ℚ) :=
  Dict.comp (linear.map (fun kv => (kv.1, ([] : Dict Nat ℚ))))

theorem member_adj0 (linear : Dict Nat ℚ) (x : Nat) :
    Dict.member (adj0 linear) x = Dict.member linear x := by
  rw [adj0, Dict.member_comp_any, Dict.member_eq_any]
  induction linear with
  | nil => rfl
  | cons kv rest ih => rw [List.map_cons, List.any_cons, List.any_cons, ih]

theorem values_adj0 {linear : Dict Nat ℚ} {kv : Nat × Dict Nat ℚ}
    (h : kv ∈ adj0 linear) : kv.2 = [] := by
  rcases List.mem_map.mp (Dict.mem_comp h) with ⟨kv', _, he⟩
  rw [← he]

theorem member2_adj0 (linear : Dict Nat ℚ) (x y : Nat) :
    member2 (adj0 linear) x y = false := by
  unfold member2
  cases hl : Dict.lookup (adj0 linear) x with
  | none => rfl
  | some d =>
    have : d = [] := values_adj0 (Dict.lookup_mem hl)
    rw [this]
    rfl

theorem checkQuadKeys_toRaw (linear : Dict Nat ℚ) (q : Dict (Nat × Nat) ℚ)
    (h : ∀ kv ∈ q, Dict.member linear kv.1.1 = true ∧
      Dict.member linear kv.1.2 = true) :
    checkQuadKeys linear (toRaw q) = .ok q := by
  induction q with
  | nil => rfl
  | cons kv rest ih =>
    have hh := h kv (List.mem_cons_self _ _)
    have ht : ∀ kv' ∈ rest, Dict.member linear kv'.1.1 = true ∧
        Dict.member linear kv'.1.2 = true :=
      fun kv' hm => h kv' (List.mem_cons_of_mem _ hm)
    show checkQuadKeys linear (([kv.1.1, kv.1.2], kv.2) :: toRaw rest) = _
    rw [checkQuadKeys]
    rw [hh.1, hh.2]
    simp only [Bool.and_self, if_true, ih ht, exceptBind_ok]

/-- Success of the adjacency-building loop, together with a key-preservation
and recorded-pair characterization strong enough to thread the
induction. -/
theorem buildAdj_ok : ∀ (q : Dict (Nat × Nat) ℚ) (a : Dict Nat (Dict Nat ℚ)),
    (∀ kv ∈ q, Dict.member a kv.1.1 = true ∧ Dict.member a kv.1.2 = true ∧
      kv.1.1 ≠ kv.1.2) →
    q.Pairwise (fun kv1 kv2 => ¬(kv1.1 = kv2.1 ∨ kv1.1 = (kv2.1.2, kv2.1.1))) →
    (∀ kv ∈ q, member2 a kv.1.1 kv.1.2 = false ∧
      member2 a kv.1.2 kv.1.1 = false) →
    ∃ A, buildAdj a q = .ok A ∧ Dict.keys A = Dict.keys a ∧
      (∀ x y, member2 A x y = true → member2 a x y = true ∨
        ∃ kv ∈ q, (x = kv.1.1 ∧ y = kv.1.2) ∨ (x = kv.1.2 ∧ y = kv.1.1)) := by
  intro q
  induction q with
  | nil =>
    intro a _ _ _
    exact ⟨a, rfl, rfl, fun x y hm => Or.inl hm⟩
  | cons kv rest ih =>
    intro a hmem hpw hm2
    have hh := hmem kv (List.mem_cons_self _ _)
    rcases (Dict.member_eq_true_iff _ _).mp hh.1 with ⟨au, hau⟩
    rcases (Dict.member_eq_true_iff _ _).mp hh.2.1 with ⟨av, hav⟩
    have hm2h := hm2 kv (List.mem_cons_self _ _)
    have hmau : Dict.member au kv.1.2 = false := by
      have := hm2h.1
      rwa [member2_some kv.1.2 hau] at this
    have hmav : Dict.member av kv.1.1 = false := by
      have := hm2h.2
      rwa [member2_some kv.1.1 hav] at this
    have hstep := adjStep_ok hh.2.2 hau hav hmau hmav
    set a1 := Dict.insert (Dict.insert a kv.1.1 (Dict.insert au kv.1.2 kv.2))
      kv.1.2 (Dict.insert av kv.1.1 kv.2) with ha1
    have hkeys1 : Dict.keys a1 = Dict.keys a := adjStep_keys hstep
    have hmember1 : ∀ x, Dict.member a1 x = Dict.member a x := by
      intro x
      cases hx : Dict.member a x with
      | true =>
        rw [Dict.member_iff_mem_keys] at hx ⊢
        rwa [hkeys1]
      | false =>
        cases hx1 : Dict.member a1 x with
        | false => rfl
        | true =>
          rw [Dict.member_iff_mem_keys, hkeys1, ← Dict.member_iff_mem_keys, hx] at hx1
          cases hx1
    have hrel : ∀ kv' ∈ rest, ¬(kv.1 = kv'.1 ∨ kv.1 = (kv'.1.2, kv'.1.1)) :=
      (List.pairwise_cons.mp hpw).1
    have hm21 : ∀ kv' ∈ rest, member2 a1 kv'.1.1 kv'.1.2 = false ∧
        member2 a1 kv'.1.2 kv'.1.1 = false := by
      intro kv' hmr
      have hrel' := hrel kv' hmr
      have hfst : kv.1 ≠ kv'.1 := fun hh' => hrel' (Or.inl hh')
      have hswp : kv.1 ≠ (kv'.1.2, kv'.1.1) := fun hh' => hrel' (Or.inr hh')
      have hm2r := hm2 kv' (List.mem_cons_of_mem _ hmr)
      constructor
      · cases hx : member2 a1 kv'.1.1 kv'.1.2 with
        | false => rfl
        | true =>
          rcases (adjStep_member2_iff hstep _ _).mp hx with hold | hp | hp
          · rw [hm2r.1] at hold
            cases hold
          · exact absurd (Prod.ext hp.1.symm hp.2.symm : kv.1 = kv'.1).symm
              (Ne.symm hfst)
          · exact absurd (Prod.ext hp.2.symm hp.1.symm) hswp
      · cases hx : member2 a1 kv'.1.2 kv'.1.1 with
        | false => rfl
        | true =>
          rcases (adjStep_member2_iff hstep _ _).mp hx with hold | hp | hp
          · rw [hm2r.2] at hold
            cases hold
          · exact absurd (Prod.ext hp.1.symm hp.2.symm) hswp
          · exact absurd (Prod.ext hp.2.symm hp.1.symm : kv.1 = kv'.1).symm
              (Ne.symm hfst)
    have hmemr : ∀ kv' ∈ rest, Dict.member a1 kv'.1.1 = true ∧
        Dict.member a1 kv'.1.2 = true ∧ kv'.1.1 ≠ kv'.1.2 := by
      intro kv' hmr
      have := hmem kv' (List.mem_cons_of_mem _ hmr)
      rw [hmember1, hmember1]
      exact this
    rcases ih a1 hmemr (List.pairwise_cons.mp hpw).2 hm21 with ⟨A, hA, hAk, hAm⟩
    refine ⟨A, ?_, by rw [hAk, hkeys1], ?_⟩
    · rw [buildAdj, List.foldlM_cons, hstep]
      exact hA
    · intro x y hm
      rcases hAm x y hm with hm1 | ⟨kv', hmr, hp⟩
      · rcases (adjStep_member2_iff hstep x y).mp hm1 with hold | hp | hp
        · exact Or.inl hold
        · exact Or.inr ⟨kv, List.mem_cons_self _ _, Or.inl hp⟩
        · exact Or.inr ⟨kv, List.mem_cons_self _ _, Or.inr hp⟩
      · exact Or.inr ⟨kv', List.mem_cons_of_mem _ hmr, hp⟩

/-- A successful adjacency build preserves key uniqueness at both levels. -/
theorem buildAdj_nodup : ∀ (q : Dict (Nat × Nat) ℚ) (a A : Dict Nat (Dict Nat ℚ)),
    buildAdj a q = .ok A → (Dict.keys a).Nodup →
    (∀ kv ∈ a, (Dict.keys kv.2).Nodup) →
    (Dict.keys A).Nodup ∧ ∀ kv ∈ A, (Dict.keys kv.2).Nodup := by
  intro q
  induction q with
  | nil =>
    intro a A hA hk hv
    cases hA
    exact ⟨hk, hv⟩
  | cons kv rest ih =>
    intro a A hA hk hv
    rw [buildAdj, List.foldlM_cons] at hA
    cases hstep : adjStep a kv with
    | error e => rw [hstep] at hA; cases hA
    | ok a1 =>
      rw [hstep] at hA
      rcases adjStep_ok_inv hstep with ⟨au, av, hne, hau, hav, _, _, he1⟩
      have hk1 : (Dict.keys a1).Nodup := by
        rw [adjStep_keys hstep]
        exact hk
      have hv1 : ∀ kv' ∈ a1, (Dict.keys kv'.2).Nodup := by
        intro kv' hm
        rw [he1] at hm
        rcases Dict.mem_insert hm with he | hm'
        · rw [he]
          exact Dict.keys_insert_nodup _ _ _ (hv _ (Dict.lookup_mem hav))
        · rcases Dict.mem_insert hm' with he | hm''
          · rw [he]
            exact Dict.keys_insert_nodup _ _ _ (hv _ (Dict.lookup_mem hau))
          · exact hv _ hm''
      exact ih a1 A hA hk1 hv1

end BinaryQuadraticModel

namespace BinaryQuadraticModel

/-- `__init__` as an explicit bind chain. -/
theorem bqmInit_eq (linear : Dict Nat ℚ) (raw : Dict (List Nat) ℚ)
    (offset : ℚ) (vt : VartypeInput) :
    bqmInit linear raw offset vt =
      (normalizeVartype vt >>= fun vartype =>
        checkQuadKeys linear raw >>= fun qpairs =>
          buildAdj (adj0 linear) qpairs >>= fun adj =>
            .ok ⟨linear, qpairs, offset, vartype, adj⟩) := rfl

/-- Success of `__init__` on structurally sane input. -/
theorem bqmInit_ok (linear : Dict Nat ℚ) (q : Dict (Nat × Nat) ℚ) (offset : ℚ)
    (w : Vartype) (hq : goodQuad linear q) :
    ∃ A, bqmInit linear (toRaw q) offset (.tok w) = .ok ⟨linear, q, offset, w, A⟩ := by
  have hc := checkQuadKeys_toRaw linear q
    (fun kv hm => ⟨(hq.1 kv hm).1, (hq.1 kv hm).2.1⟩)
  rcases buildAdj_ok q (adj0 linear)
      (fun kv hm => ⟨by rw [member_adj0]; exact (hq.1 kv hm).1,
        by rw [member_adj0]; exact (hq.1 kv hm).2.1, (hq.1 kv hm).2.2⟩)
      hq.2
      (fun kv _ => ⟨member2_adj0 _ _ _, member2_adj0 _ _ _⟩) with ⟨A, hA, _, _⟩
  refine ⟨A, ?_⟩
  rw [bqmInit_eq]
  rw [show normalizeVartype (.tok w) = .ok w from rfl]
  simp only [exceptBind_ok]
  rw [hc]
  simp only [exceptBind_ok]
  rw [hA]
  simp only [exceptBind_ok]

/-- Decomposition of constructor-fixed-point validity. -/
theorem valid_inv {m : BinaryQuadraticModel} (h : Valid m) :
    checkQuadKeys m.linear (toRaw m.quadratic) = .ok m.quadratic ∧
    buildAdj (adj0 m.linear) m.quadratic = .ok m.adj := by
  obtain ⟨ml, mq, mo, mv, ma⟩ := m
  unfold Valid at h
  rw [bqmInit_eq] at h
  rw [show normalizeVartype (.tok (mk ml mq mo mv ma).vartype) = .ok mv from rfl] at h
  simp only [exceptBind_ok] at h
  cases hc : checkQuadKeys (mk ml mq mo mv ma).linear
      (toRaw (mk ml mq mo mv ma).quadratic) with
  | error e =>
    rw [hc] at h
    simp only [exceptBind_error] at h
    exact Except.noConfusion h
  | ok qp =>
    rw [hc] at h
    simp only [exceptBind_ok] at h
    cases hb : buildAdj (adj0 (mk ml mq mo mv ma).linear) qp with
    | error e =>
      rw [hb] at h
      simp only [exceptBind_error] at h
      exact Except.noConfusion h
    | ok A =>
      rw [hb] at h
      simp only [exceptBind_ok, Except.ok.injEq, mk.injEq] at h
      rcases h with ⟨_, hqp, _, _, hA⟩
      subst hqp
      subst hA
      exact ⟨rfl, hb⟩

/-- The adjacency of a valid model has unique keys at both levels. -/
theorem valid_adj_nodup {m : BinaryQuadraticModel} (h : Valid m) :
    (Dict.keys m.adj).Nodup ∧ ∀ kv ∈ m.adj, (Dict.keys kv.2).Nodup := by
  have hb := (valid_inv h).2
  exact buildAdj_nodup m.quadratic (adj0 m.linear) m.adj hb
    (Dict.keys_comp_nodup _)
    (fun kv hm => by rw [values_adj0 hm]; exact List.nodup_nil)

/-- `normalizeVartype` fails only with `TypeError`. -/
theorem normalizeVartype_err {vt : VartypeInput} {e : PyError}
    (h : normalizeVartype vt = .error e) : e = .typeError := by
  cases vt with
  | tok w => exact Except.noConfusion h
  | name s =>
    simp only [normalizeVartype] at h
    split_ifs at h
    exact (Except.error.inj h).symm
  | valueSet s =>
    simp only [normalizeVartype] at h
    split_ifs at h
    exact (Except.error.inj h).symm
  | unknown => exact (Except.error.inj h).symm

/-- The quadratic-key validation pass fails only with `ValueError`. -/
theorem checkQuadKeys_err_kind (linear : Dict Nat ℚ) :
    ∀ raw : Dict (List Nat) ℚ, (∃ q, checkQuadKeys linear raw = .ok q) ∨
      checkQuadKeys linear raw = .error .valueError := by
  intro raw
  induction raw with
  | nil => exact Or.inl ⟨[], rfl⟩
  | cons kb rest ih =>
    obtain ⟨k, b⟩ := kb
    rcases k with _ | ⟨u, _ | ⟨v, _ | ⟨w, t⟩⟩⟩
    · exact Or.inr rfl
    · exact Or.inr rfl
    · cases hc : (Dict.member linear u && Dict.member linear v) with
      | false => exact Or.inr (by rw [checkQuadKeys]; simp [hc])
      | true =>
        rcases ih with ⟨q, hq⟩ | hq
        · exact Or.inl ⟨((u, v), b) :: q, by rw [checkQuadKeys]; simp [hc, hq]⟩
        · exact Or.inr (by rw [checkQuadKeys]; simp [hc, hq])
    · exact Or.inr rfl

/-- A key that is not a 2-tuple forces the validation pass to fail. -/
theorem checkQuadKeys_badkey (linear : Dict Nat ℚ) :
    ∀ raw : Dict (List Nat) ℚ, (∃ kb ∈ raw, kb.1.length ≠ 2) →
      checkQuadKeys linear raw = .error .valueError := by
  intro raw
  induction raw with
  | nil => rintro ⟨kb, hm, _⟩; cases hm
  | cons kb rest ih =>
    rintro ⟨kb', hm, hlen⟩
    obtain ⟨k, b⟩ := kb
    rcases List.mem_cons.mp hm with he | hmr
    · rcases k with _ | ⟨u, _ | ⟨v, _ | ⟨w, t⟩⟩⟩
      · rfl
      · rfl
      · exfalso
        apply hlen
        rw [he]
        rfl
      · rfl
    · rcases k with _ | ⟨u, _ | ⟨v, _ | ⟨w, t⟩⟩⟩
      · rfl
      · rfl
      · rw [checkQuadKeys]
        cases hc : (Dict.member linear u && Dict.member linear v) with
        | false => simp [hc]
        | true => simp [hc, ih ⟨kb', hmr, hlen⟩]
      · rfl

end BinaryQuadraticModel

namespace BinaryQuadraticModel

/-- With all endpoint rows present, the adjacency build fails only with
`ValueError`. -/
theorem buildAdj_err_kind : ∀ (q : Dict (Nat × Nat) ℚ) (a : Dict Nat (Dict Nat ℚ)),
    (∀ kv ∈ q, Dict.member a kv.1.1 = true ∧ Dict.member a kv.1.2 = true) →
    (∃ A, buildAdj a q = .ok A) ∨ buildAdj a q = .error .valueError := by
  intro q
  induction q with
  | nil => intro a _; exact Or.inl ⟨a, rfl⟩
  | cons kv rest ih =>
    intro a hmem
    have hh := hmem kv (List.mem_cons_self _ _)
    rcases adjStep_err_kind hh.1 hh.2 with ⟨a1, hstep⟩ | hstep
    · have hmem1 : ∀ kv' ∈ rest, Dict.member a1 kv'.1.1 = true ∧
          Dict.member a1 kv'.1.2 = true := by
        intro kv' hmr
        have hr := hmem kv' (List.mem_cons_of_mem _ hmr)
        have hk := adjStep_keys hstep
        rw [Dict.member_iff_mem_keys, Dict.member_iff_mem_keys, hk,
          ← Dict.member_iff_mem_keys, ← Dict.member_iff_mem_keys]
        exact hr
      rcases ih a1 hmem1 with ⟨A, hA⟩ | hA
      · exact Or.inl ⟨A, by rw [buildAdj, List.foldlM_cons, hstep]; exact hA⟩
      · exact Or.inr (by rw [buildAdj, List.foldlM_cons, hstep]; exact hA)
    · exact Or.inr (by rw [buildAdj, List.foldlM_cons, hstep]; rfl)

/-- A self-loop entry makes the adjacency build fail. -/
theorem buildAdj_not_ok_selfloop : ∀ (q : Dict (Nat × Nat) ℚ)
    (a : Dict Nat (Dict Nat ℚ)), (∃ kv ∈ q, kv.1.1 = kv.1.2) →
    ∀ A, buildAdj a q ≠ .ok A := by
  intro q
  induction q with
  | nil => rintro a ⟨kv, hm, _⟩ A; cases hm
  | cons kv rest ih =>
    rintro a ⟨kv', hm, hloop⟩ A hok
    rw [buildAdj, List.foldlM_cons] at hok
    cases hstep : adjStep a kv with
    | error e => rw [hstep] at hok; exact Except.noConfusion hok
    | ok a1 =>
      rw [hstep] at hok
      rcases List.mem_cons.mp hm with he | hmr
      · rcases adjStep_ok_inv hstep with ⟨au, av, hne, _⟩
        rw [← he] at hne
        exact hne hloop
      · exact ih a1 ⟨kv', hmr, hloop⟩ A hok

/-- Once one orientation of a pair is recorded, a later entry with the
reverse orientation makes the build fail. -/
theorem buildAdj_rev_recorded : ∀ (q : Dict (Nat × Nat) ℚ)
    (a : Dict Nat (Dict Nat ℚ)) (v u : Nat), member2 a v u = true →
    (∃ b2, ((v, u), b2) ∈ q) → ∀ A, buildAdj a q ≠ .ok A := by
  intro q
  induction q with
  | nil => rintro a v u _ ⟨b2, hm⟩ A; cases hm
  | cons kv rest ih =>
    rintro a v u hm2 ⟨b2, hm⟩ A hok
    rw [buildAdj, List.foldlM_cons] at hok
    cases hstep : adjStep a kv with
    | error e => rw [hstep] at hok; exact Except.noConfusion hok
    | ok a1 =>
      rw [hstep] at hok
      rcases List.mem_cons.mp hm with he | hmr
      · rcases adjStep_ok_inv hstep with ⟨au, av, hne, hau, hav, hmau, _, _⟩
        have hk1 : kv.1.1 = v := by rw [← he]
        have hk2 : kv.1.2 = u := by rw [← he]
        rw [member2_some u (hk1 ▸ hau : Dict.lookup a v = some au)] at hm2
        rw [hk2] at hmau
        rw [hm2] at hmau
        exact Bool.noConfusion hmau
      · exact ih a1 v u (adjStep_member2_mono hstep hm2) ⟨b2, hmr⟩ A hok

/-- Both orientations of one unordered pair in the input make the build
fail. -/
theorem buildAdj_not_ok_dup : ∀ (l1 : Dict (Nat × Nat) ℚ)
    (a : Dict Nat (Dict Nat ℚ)) (u v : Nat) (b : ℚ) (l2 : Dict (Nat × Nat) ℚ),
    (∃ b2, ((v, u), b2) ∈ l2) →
    ∀ A, buildAdj a (l1 ++ ((u, v), b) :: l2) ≠ .ok A := by
  intro l1
  induction l1 with
  | nil =>
    rintro a u v b l2 hrev A hok
    rw [List.nil_append, buildAdj, List.foldlM_cons] at hok
    cases hstep : adjStep a ((u, v), b) with
    | error e => rw [hstep] at hok; exact Except.noConfusion hok
    | ok a1 =>
      rw [hstep] at hok
      have hm2 : member2 a1 v u = true :=
        (adjStep_member2_iff hstep v u).mpr (Or.inr (Or.inr ⟨rfl, rfl⟩))
      exact buildAdj_rev_recorded l2 a1 v u hm2 hrev A hok
  | cons kv rest ih =>
    rintro a u v b l2 hrev A hok
    rw [List.cons_append, buildAdj, List.foldlM_cons] at hok
    cases hstep : adjStep a kv with
    | error e => rw [hstep] at hok; exact Except.noConfusion hok
    | ok a1 =>
      rw [hstep] at hok
      exact ih a1 u v b l2 hrev A hok

end BinaryQuadraticModel

open BinaryQuadraticModel

/-- C7: Construction raises the documented error kinds for every invalid
input: a quadratic key that is not a 2-tuple of variables raises a value
error; a self-loop key (v,v) raises a value error; a quadratic mapping
containing both (u,v) and (v,u) raises a value error; a vartype token that
does not normalize to SPIN or BINARY (e.g. the integer 147 or an
unrecognized string) raises a type error.  (The first three parts assume
the vartype normalizes, since `__init__` checks the vartype first; the
self-loop and duplicate parts assume the endpoint-membership pass succeeds,
since it runs before the adjacency build.) -/
theorem claim_C7_construction_errors :
    (∀ (linear : Dict Nat ℚ) (raw : Dict (List Nat) ℚ) (offset : ℚ)
      (vt : VartypeInput) (w : Vartype), normalizeVartype vt = .ok w →
      (∃ kb ∈ raw, kb.1.length ≠ 2) →
      bqmInit linear raw offset vt = .error .valueError) ∧
    (∀ (linear : Dict Nat ℚ) (q : Dict (Nat × Nat) ℚ) (offset : ℚ)
      (vt : VartypeInput) (w : Vartype) (v : Nat) (b : ℚ),
      normalizeVartype vt = .ok w →
      (∀ kv ∈ q, Dict.member linear kv.1.1 = true ∧
        Dict.member linear kv.1.2 = true) →
      ((v, v), b) ∈ q →
      bqmInit linear (toRaw q) offset vt = .error .valueError) ∧
    (∀ (linear : Dict Nat ℚ) (offset : ℚ) (vt : VartypeInput) (w : Vartype)
      (u v : Nat) (b b2 : ℚ) (l1 l2 : Dict (Nat × Nat) ℚ),
      normalizeVartype vt = .ok w →
      (∀ kv ∈ l1 ++ ((u, v), b) :: l2, Dict.member linear kv.1.1 = true ∧
        Dict.member linear kv.1.2 = true) →
      ((v, u), b2) ∈ l2 →
      bqmInit linear (toRaw (l1 ++ ((u, v), b) :: l2)) offset vt =
        .error .valueError) ∧
    (∀ (linear : Dict Nat ℚ) (raw : Dict (List Nat) ℚ) (offset : ℚ)
      (vt : VartypeInput), (∀ w, normalizeVartype vt ≠ .ok w) →
      bqmInit linear raw offset vt = .error .typeError) := by
  refine ⟨?_, ?_, ?_, ?_⟩
  · intro linear raw offset vt w hvt hbad
    rw [bqmInit_eq, hvt]
    simp only [exceptBind_ok]
    rw [checkQuadKeys_badkey linear raw hbad]
    rfl
  · intro linear q offset vt w v b hvt hmem hloop
    rw [bqmInit_eq, hvt]
    simp only [exceptBind_ok]
    rw [checkQuadKeys_toRaw linear q hmem]
    simp only [exceptBind_ok]
    have hmem0 : ∀ kv ∈ q, Dict.member (adj0 linear) kv.1.1 = true ∧
        Dict.member (adj0 linear) kv.1.2 = true := by
      intro kv hm
      rw [member_adj0, member_adj0]
      exact hmem kv hm
    rcases buildAdj_err_kind q (adj0 linear) hmem0 with ⟨A, hA⟩ | hA
    · exact absurd hA
        (buildAdj_not_ok_selfloop q (adj0 linear) ⟨((v, v), b), hloop, rfl⟩ A)
    · rw [hA]
      rfl
  · intro linear offset vt w u v b b2 l1 l2 hvt hmem hrev
    rw [bqmInit_eq, hvt]
    simp only [exceptBind_ok]
    rw [checkQuadKeys_toRaw linear _ hmem]
    simp only [exceptBind_ok]
    have hmem0 : ∀ kv ∈ l1 ++ ((u, v), b) :: l2,
        Dict.member (adj0 linear) kv.1.1 = true ∧
        Dict.member (adj0 linear) kv.1.2 = true := by
      intro kv hm
      rw [member_adj0, member_adj0]
      exact hmem kv hm
    rcases buildAdj_err_kind _ (adj0 linear) hmem0 with ⟨A, hA⟩ | hA
    · exact absurd hA (buildAdj_not_ok_dup l1 (adj0 linear) u v b l2 ⟨b2, hrev⟩ A)
    · rw [hA]
      rfl
  · intro linear raw offset vt hvt
    cases hn : normalizeVartype vt with
    | ok w => exact absurd hn (hvt w)
    | error e =>
      rw [bqmInit_eq, hn, normalizeVartype_err hn]
      rfl

/-- Witness for C7 at concrete inputs: a non-2-tuple key `(0,)`, the
self-loop `(0,0)`, the duplicate pair `(0,1)`/`(1,0)`, and the unknown
vartype token. -/
theorem claim_C7_witness :
    bqmInit [(0, 0)] [([0], 1)] 0 (.tok .SPIN) = .error .valueError ∧
    bqmInit [(0, 0)] (toRaw [((0, 0), 1)]) 0 (.tok .SPIN) = .error .valueError ∧
    bqmInit [(0, 0), (1, 0)] (toRaw ([] ++ ((0, 1), (1 : ℚ)) :: [((1, 0), 2)]))
      0 (.tok .BINARY) = .error .valueError ∧
    bqmInit [(0, 0)] [] 0 .unknown = .error .typeError :=
  ⟨claim_C7_construction_errors.1 [(0, 0)] [([0], 1)] 0 (.tok .SPIN) .SPIN rfl
      ⟨([0], 1), List.mem_cons_self _ _, by decide⟩,
   claim_C7_construction_errors.2.1 [(0, 0)] [((0, 0), 1)] 0 (.tok .SPIN) .SPIN
      0 1 rfl (by decide) (List.mem_cons_self _ _),
   claim_C7_construction_errors.2.2.1 [(0, 0), (1, 0)] 0 (.tok .BINARY) .BINARY
      0 1 1 2 [] [((1, 0), 2)] rfl (by decide) (List.mem_cons_self _ _),
   claim_C7_construction_errors.2.2.2 [(0, 0)] [] 0 .unknown
      (fun w h => Except.noConfusion h)⟩

instance goodQuadDecidable (linear : Dict Nat ℚ) (q : Dict (Nat × Nat) ℚ) :
    Decidable (goodQuad linear q) := by
  unfold goodQuad
  exact inferInstance

/-- A valid SPIN model with variables 0, 1, 6: the variable 6 lies at the
intermediate-label counter start `2*len = 6` of the in-place relabeling. -/
def modelA : BinaryQuadraticModel :=
  ⟨[(0, 1), (1, 2), (6, 3)], [], 0, .SPIN, [(0, []), (1, []), (6, [])]⟩

/-- The cyclic relabeling swapping variables 0 and 1. -/
def swapMap : Dict Nat Nat := [(0, 1), (1, 0)]

/-- C2: on the valid model with variables {0,1,6} and the cyclic mapping
{0:1, 1:0} (which passes the collision check), `relabel_variables` with
copy=False raises ValueError — the generated intermediate label 6 collides
with the existing unmapped variable 6 and the recursive collision check
rejects it — while copy=True succeeds and returns the relabeled model.
This refutes the claimed copy=False/copy=True equivalence. -/
theorem claim_C2_bug :
    WfBQM modelA ∧
    relabel_variables modelA swapMap false = .error .valueError ∧
    relabel_variables modelA swapMap true =
      .ok ⟨[(1, 1), (0, 2), (6, 3)], [], 0, .SPIN, [(1, []), (0, []), (6, [])]⟩ :=
  ⟨⟨by decide, by decide, rfl⟩, rfl, rfl⟩

/-- C3: for the valid model with variables {0,1,6} and the injective,
fully-cyclic mapping {0:1, 1:0} (whose inverse is itself), the in-place
first application already raises ValueError, so the claimed
relabel-then-inverse round trip fails for copy=False; the copy=True route
does round-trip back to the original model. -/
theorem claim_C3_bug :
    WfBQM modelA ∧
    relabel_variables modelA swapMap false = .error .valueError ∧
    (relabel_variables modelA swapMap true).bind
      (fun m1 => relabel_variables m1 swapMap true) = .ok modelA :=
  ⟨⟨by decide, by decide, rfl⟩, rfl, rfl⟩

/-- A valid SPIN model whose linear insertion order (1, 0, 2) differs from
its quadratic insertion order ((0,2), (1,2)). -/
def modelB : BinaryQuadraticModel :=
  ⟨[(1, 10), (0, 20), (2, 30)], [((0, 2), 1), ((1, 2), 2)], 0, .SPIN,
    [(1, [(2, 2)]), (0, [(2, 1)]), (2, [(0, 1), (1, 2)])]⟩

/-- The state of `modelB` after the successful in-place relabeling with the
non-injective mapping {0:9, 1:9}. -/
def modelB4 : BinaryQuadraticModel :=
  ⟨[(2, 30), (9, 20)], [((9, 2), 2)], 0, .SPIN, [(2, [(9, 1)]), (9, [(2, 1)])]⟩

/-- C4: the non-injective mapping {0:9, 1:9} passes the collision check and
the in-place relabeling of `modelB` succeeds, but it leaves the adjacency
out of sync with the quadratic dict: the surviving quadratic entry (9,2)
has bias 2 while `adj[9][2]` (and `adj[2][9]`) hold bias 1, because the
linear/adjacency pass merges in linear insertion order while the quadratic
pass merges in quadratic insertion order.  This refutes the claimed
adjacency invariant after every successful public operation. -/
theorem claim_C4_bug :
    WfBQM modelB ∧
    relabel_variables modelB [(0, 9), (1, 9)] false = .ok modelB4 ∧
    Dict.lookup modelB4.quadratic (9, 2) = some 2 ∧
    (Dict.lookup modelB4.adj 9).bind (fun d => Dict.lookup d 2) = some 1 ∧
    (Dict.lookup modelB4.adj 2).bind (fun d => Dict.lookup d 9) = some 1 :=
  ⟨⟨by decide, by decide, rfl⟩, rfl, rfl, rfl, rfl⟩

namespace Dict

/-- Reflexivity of dict equality, given unique keys and a reflexive value
comparison. -/
theorem beqBy_refl {α β : Type} [DecidableEq α] (valEq : β → β → Bool)
    (d : Dict α β) (hn : (keys d).Nodup)
    (hval : ∀ kv ∈ d, valEq kv.2 kv.2 = true) : beqBy valEq d d = true := by
  rw [beqBy, Bool.and_eq_true, List.all_eq_true, List.all_eq_true]
  constructor
  · intro kv hm
    rw [mem_lookup hn hm]
    exact hval kv hm
  · intro kv hm
    rw [member_eq_true_iff]
    exact lookup_isSome_of_mem hm

theorem beq_refl {α β : Type} [DecidableEq α] [DecidableEq β] (d : Dict α β)
    (hn : (keys d).Nodup) : beq d d = true :=
  beqBy_refl _ d hn (fun kv _ => by simp)

end Dict

/-- `l.map f = l` when `f` fixes every element of `l`. -/
theorem listMapId {α : Type} (l : List α) (f : α → α)
    (h : ∀ x ∈ l, f x = x) : l.map f = l := by
  induction l with
  | nil => rfl
  | cons x rest ih =>
    rw [List.map_cons, h x (List.mem_cons_self _ _),
      ih (fun y hy => h y (List.mem_cons_of_mem _ hy))]

namespace BinaryQuadraticModel

/-- The pairwise part of `goodQuad` makes the quadratic keys unique. -/
theorem goodQuad_keys_nodup {linear : Dict Nat ℚ} {q : Dict (Nat × Nat) ℚ}
    (h : goodQuad linear q) : (Dict.keys q).Nodup := by
  have hp : q.Pairwise (fun kv1 kv2 => kv1.1 ≠ kv2.1) :=
    h.2.imp (fun hrel he => hrel (Or.inl he))
  exact List.Pairwise.map Prod.fst (fun a b hh => hh) hp

end BinaryQuadraticModel

namespace BinaryQuadraticModel

/-- `__eq__` is reflexive on valid models with unique keys. -/
theorem bqmEq_refl (m : BinaryQuadraticModel)
    (hl : (Dict.keys m.linear).Nodup) (hv : Valid m) : bqmEq m m = true := by
  rcases valid_adj_nodup hv with ⟨hak, han⟩
  rw [bqmEq, if_pos rfl, Bool.and_eq_true, Bool.and_eq_true]
  refine ⟨⟨Dict.beq_refl _ hl, ?_⟩, by simp⟩
  exact Dict.beqBy_refl _ _ hak
    (fun kv hm => Dict.beq_refl _ (han kv hm))

/-- A generic no-op fold: if every step returns its state, the monadic fold
returns the initial state. -/
theorem foldlM_id {σ α : Type} (l : List α) (f : σ → α → Except PyError σ)
    (h : ∀ s x, x ∈ l → f s x = .ok s) (s : σ) : l.foldlM f s = .ok s := by
  induction l generalizing s with
  | nil => rfl
  | cons x rest ih =>
    rw [List.foldlM_cons, h s x (List.mem_cons_self _ _)]
    exact (by simpa using ih (fun s' y hy => h s' y (List.mem_cons_of_mem _ hy)) s)

/-- In-place relabeling with the empty mapping is the identity. -/
theorem relabelFuel_empty (fuel : Nat) (m : BinaryQuadraticModel) :
    relabelFuel (fuel + 1) m [] false = .ok m := by
  rw [relabelFuel]
  simp only [Dict.keys, List.map_nil, List.any_nil, Bool.false_eq_true,
    if_false, List.filter_nil, List.isEmpty_nil, Bool.not_true]
  rw [foldlM_id (List.map Prod.fst m.linear) (relabelLinAdjStep [])
    (fun s x _ => rfl)]
  simp only [exceptBind_ok]
  rw [foldlM_id (List.map Prod.fst m.quadratic) (relabelQuadStep [])
    (fun s x _ => rfl)]
  simp only [exceptBind_ok]

/-- Self-labels are elided by the intermediate-mapping construction. -/
theorem buildIntermediates_selfmaps (mapping : Dict Nat Nat)
    (ol nl : List Nat) (start : Nat)
    (hself : ∀ kv ∈ mapping, kv.2 = kv.1) :
    buildIntermediates mapping ol nl start = (start, [], []) := by
  rw [buildIntermediates]
  induction mapping with
  | nil => rfl
  | cons kv rest ih =>
    rw [List.foldl_cons, if_pos (hself kv (List.mem_cons_self _ _)).symm]
    exact ih (fun kv' hm => hself kv' (List.mem_cons_of_mem _ hm))

/-- Under a self-map mapping, `mapping.get(v, v) = v`. -/
theorem mapGet_selfmaps {mapping : Dict Nat Nat}
    (hself : ∀ kv ∈ mapping, kv.2 = kv.1) (v : Nat) :
    mapGet mapping v = v := by
  rw [mapGet]
  cases hl : Dict.lookup mapping v with
  | none => rfl
  | some y =>
    have := hself (v, y) (Dict.lookup_mem hl)
    simp at this
    simp [this]

/-- The collision check passes for any self-map mapping. -/
theorem collision_selfmaps (m : BinaryQuadraticModel)
    (mapping : Dict Nat Nat) (hself : ∀ kv ∈ mapping, kv.2 = kv.1) :
    ((mapping.map Prod.snd).any (fun v => Dict.member m.linear v &&
      !((Dict.keys mapping).contains v))) = false := by
  rw [List.any_eq_false]
  intro v hv
  rcases List.mem_map.mp hv with ⟨kv, hkv, he⟩
  have hvk : v = kv.1 := by rw [← he, hself kv hkv]
  have hmem : v ∈ Dict.keys mapping := by
    rw [hvk]
    exact List.mem_map.mpr ⟨kv, hkv, rfl⟩
  have : (Dict.keys mapping).contains v = true := by
    rw [List.contains_eq_any_beq, List.any_eq_true]
    exact ⟨v, hmem, by simp⟩
  rw [this]
  simp

end BinaryQuadraticModel

/-- C10: for every valid model and every mapping consisting only of
self-maps over its variables, `relabel_variables` succeeds and returns a
model equal to the original, under both copy=False (where non-empty
self-map mappings take the overlapping branch, which elides all self-labels
and performs two empty relabelings) and copy=True (which rebuilds the model
through the constructor with identity comprehensions). -/
theorem claim_C10_selfmap_relabel (m : BinaryQuadraticModel)
    (mapping : Dict Nat Nat) (hw : WfBQM m)
    (hself : ∀ kv ∈ mapping, kv.2 = kv.1)
    (hkeys : ∀ kv ∈ mapping, Dict.member m.linear kv.1 = true) :
    relabel_variables m mapping false = .ok m ∧
    relabel_variables m mapping true = .ok m ∧
    bqmEq m m = true := by
  obtain ⟨hn, hq, hv⟩ := hw
  refine ⟨?_, ?_, bqmEq_refl m hn hv⟩
  · cases mapping with
    | nil => exact relabelFuel_empty 1 m
    | cons kv rest =>
      rw [relabel_variables, relabelFuel]
      rw [collision_selfmaps m (kv :: rest) hself]
      simp only [Bool.false_eq_true, if_false]
      have h1 : kv.1 ∈ (Dict.keys (kv :: rest)).filter
          (fun v => (List.map Prod.snd (kv :: rest)).contains v) := by
        rw [List.mem_filter]
        refine ⟨by simp [Dict.keys], ?_⟩
        rw [List.contains_eq_any_beq, List.any_eq_true]
        exact ⟨kv.2, by simp, by simp [hself kv (List.mem_cons_self _ _)]⟩
      have hsh : ((Dict.keys (kv :: rest)).filter
          (fun v => (List.map Prod.snd (kv :: rest)).contains v)).isEmpty = false := by
        cases hfe : ((Dict.keys (kv :: rest)).filter
            (fun v => (List.map Prod.snd (kv :: rest)).contains v)).isEmpty
        · rfl
        · rw [List.isEmpty_iff] at hfe
          rw [hfe] at h1
          cases h1
      rw [hsh]
      simp only [Bool.not_false, if_true]
      rw [buildIntermediates_selfmaps _ _ _ _ hself]
      have h2 : relabelFuel 1 m [] false = .ok m := relabelFuel_empty 0 m
      rw [h2]
      simp only [exceptBind_ok]
      exact h2
  · rw [relabel_variables, relabelFuel]
    rw [collision_selfmaps m mapping hself]
    simp only [Bool.false_eq_true, if_false]
    rw [if_true]
    have hl : m.linear.map (fun kv => (mapGet mapping kv.1, kv.2)) = m.linear :=
      listMapId _ _ (fun kv _ => by
        rw [BinaryQuadraticModel.mapGet_selfmaps hself kv.1])
    have hq2 : m.quadratic.map (fun kv =>
        ((mapGet mapping kv.1.1, mapGet mapping kv.1.2), kv.2)) = m.quadratic :=
      listMapId _ _ (fun kv _ => by
        rw [BinaryQuadraticModel.mapGet_selfmaps hself kv.1.1,
          BinaryQuadraticModel.mapGet_selfmaps hself kv.1.2])
    rw [hl, hq2, Dict.comp_eq_self _ hn,
      Dict.comp_eq_self _ (BinaryQuadraticModel.goodQuad_keys_nodup hq)]
    exact hv

/-- Witness for C10 on the concrete model with variables {0,1,6} and the
self-map mapping {0:0, 1:1}. -/
theorem claim_C10_witness :
    relabel_variables modelA [(0, 0), (1, 1)] false = .ok modelA ∧
    relabel_variables modelA [(0, 0), (1, 1)] true = .ok modelA ∧
    bqmEq modelA modelA = true :=
  claim_C10_selfmap_relabel modelA [(0, 0), (1, 1)]
    ⟨by decide, by decide, rfl⟩ (by decide) (by decide)

namespace BinaryQuadraticModel

/-- `energy` as an explicit bind chain. -/
theorem energy_eq (m : BinaryQuadraticModel) (sample : Dict Nat ℚ) :
    energy m sample =
      ((m.linear.foldlM (fun acc kv => do
          let s ← Dict.getItem sample kv.1
          pure (acc + kv.2 * s)) (0 : ℚ)) >>= fun sumL =>
        (m.quadratic.foldlM (fun acc kv => do
          let su ← Dict.getItem sample kv.1.1
          let sv ← Dict.getItem sample kv.1.2
          pure (acc + kv.2 * su * sv)) (0 : ℚ)) >>= fun sumQ =>
        .ok (m.offset + sumL + sumQ)) := rfl

/-- The linear-contribution fold evaluates to the expected sum when every
variable has a sample value. -/
theorem energy_linfold_ok (l sample : Dict Nat ℚ) (f : Nat → ℚ)
    (hcov : ∀ v ∈ Dict.keys l, Dict.lookup sample v = some (f v)) :
    ∀ acc : ℚ, l.foldlM (fun acc kv => do
        let s ← Dict.getItem sample kv.1
        pure (acc + kv.2 * s)) acc =
      .ok (acc + (l.map (fun kv => kv.2 * f kv.1)).sum) := by
  induction l with
  | nil => intro acc; simp
  | cons kv rest ih =>
    intro acc
    rw [List.foldlM_cons, Dict.getItem,
      hcov kv.1 (by exact List.mem_map.mpr ⟨kv, List.mem_cons_self _ _, rfl⟩)]
    simp only [exceptBind_ok, exceptPureBind]
    rw [ih (fun v hv => hcov v (List.mem_cons_of_mem _ hv))]
    rw [List.map_cons, List.sum_cons, add_assoc]

/-- The quadratic-contribution fold evaluates to the expected sum when every
endpoint has a sample value. -/
theorem energy_quadfold_ok (q : Dict (Nat × Nat) ℚ) (sample : Dict Nat ℚ)
    (f : Nat → ℚ)
    (hcov : ∀ kv ∈ q, Dict.lookup sample kv.1.1 = some (f kv.1.1) ∧
      Dict.lookup sample kv.1.2 = some (f kv.1.2)) :
    ∀ acc : ℚ, q.foldlM (fun acc kv => do
        let su ← Dict.getItem sample kv.1.1
        let sv ← Dict.getItem sample kv.1.2
        pure (acc + kv.2 * su * sv)) acc =
      .ok (acc + (q.map (fun kv => kv.2 * f kv.1.1 * f kv.1.2)).sum) := by
  induction q with
  | nil => intro acc; simp
  | cons kv rest ih =>
    intro acc
    have hc := hcov kv (List.mem_cons_self _ _)
    rw [List.foldlM_cons, Dict.getItem, hc.1]
    simp only [exceptBind_ok]
    rw [Dict.getItem, hc.2]
    simp only [exceptBind_ok, exceptPureBind]
    rw [ih (fun kv' hm => hcov kv' (List.mem_cons_of_mem _ hm))]
    rw [List.map_cons, List.sum_cons, add_assoc]

/-- The linear-contribution fold raises `KeyError` as soon as a variable is
missing from the sample. -/
theorem energy_linfold_err (l sample : Dict Nat ℚ)
    (hmiss : ∃ v ∈ Dict.keys l, Dict.lookup sample v = none) :
    ∀ acc : ℚ, l.foldlM (fun acc kv => do
        let s ← Dict.getItem sample kv.1
        pure (acc + kv.2 * s)) acc = .error .keyError := by
  induction l with
  | nil => rcases hmiss with ⟨v, hv, _⟩; cases hv
  | cons kv rest ih =>
    intro acc
    rw [List.foldlM_cons]
    cases hl : Dict.lookup sample kv.1 with
    | none =>
      rw [Dict.getItem, hl]
      rfl
    | some s =>
      rw [Dict.getItem, hl]
      simp only [exceptBind_ok, exceptPureBind]
      rcases hmiss with ⟨v, hv, hvn⟩
      rcases List.mem_cons.mp (by rwa [Dict.keys, List.map_cons] at hv) with he | hr
      · rw [← he] at hl
        rw [hl] at hvn
        cases hvn
      · exact ih ⟨v, hr, hvn⟩ _

end BinaryQuadraticModel

/-- C6: for every valid model, `energy(sample)` returns offset plus the
linear contributions `bias * sample[v]` plus the quadratic contributions
`bias * sample[u] * sample[v]` whenever the sample assigns a value to every
variable, and raises `KeyError` whenever any variable referenced by
`linear` or `quadratic` is missing from the sample. -/
theorem claim_C6_energy (m : BinaryQuadraticModel) (sample : Dict Nat ℚ)
    (hw : WfBQM m) :
    (∀ f : Nat → ℚ,
      (∀ v ∈ Dict.keys m.linear, Dict.lookup sample v = some (f v)) →
      energy m sample = .ok (m.offset +
        (m.linear.map (fun kv => kv.2 * f kv.1)).sum +
        (m.quadratic.map (fun kv => kv.2 * f kv.1.1 * f kv.1.2)).sum)) ∧
    ((∃ v, (v ∈ Dict.keys m.linear ∨
        ∃ kv ∈ m.quadratic, v = kv.1.1 ∨ v = kv.1.2) ∧
      Dict.lookup sample v = none) →
      energy m sample = .error .keyError) := by
  obtain ⟨hn, hq, hv⟩ := hw
  constructor
  · intro f hcov
    rw [energy_eq, energy_linfold_ok m.linear sample f hcov]
    simp only [exceptBind_ok]
    have hqcov : ∀ kv ∈ m.quadratic,
        Dict.lookup sample kv.1.1 = some (f kv.1.1) ∧
        Dict.lookup sample kv.1.2 = some (f kv.1.2) := by
      intro kv hm
      have h1 := (hq.1 kv hm).1
      have h2 := (hq.1 kv hm).2.1
      rw [Dict.member_iff_mem_keys] at h1 h2
      exact ⟨hcov _ h1, hcov _ h2⟩
    rw [energy_quadfold_ok m.quadratic sample f hqcov]
    simp only [exceptBind_ok, zero_add]
  · rintro ⟨v, href, hvn⟩
    have hlin : v ∈ Dict.keys m.linear := by
      rcases href with h | ⟨kv, hm, he⟩
      · exact h
      · rcases he with he | he
        · have := (hq.1 kv hm).1
          rw [Dict.member_iff_mem_keys] at this
          rwa [he]
        · have := (hq.1 kv hm).2.1
          rw [Dict.member_iff_mem_keys] at this
          rwa [he]
    rw [energy_eq, energy_linfold_err m.linear sample ⟨v, hlin, hvn⟩]
    rfl

/-- Witness for C6: the SPIN model `{0:1, 1:2, 6:3}` with the total sample
`{0:1, 1:1, 6:1}` (hypotheses discharged there), and the same model with a
sample missing variable 6. -/
theorem claim_C6_witness :
    energy modelA [(0, 1), (1, 1), (6, 1)] =
      .ok (modelA.offset +
        (modelA.linear.map (fun kv => kv.2 * (1 : ℚ))).sum +
        (modelA.quadratic.map (fun kv => kv.2 * 1 * 1)).sum) ∧
    energy modelA [(0, 1), (1, 1)] = .error .keyError :=
  ⟨(claim_C6_energy modelA [(0, 1), (1, 1), (6, 1)]
      ⟨by decide, by decide, rfl⟩).1 (fun _ => 1) (by decide),
   (claim_C6_energy modelA [(0, 1), (1, 1)]
      ⟨by decide, by decide, rfl⟩).2 ⟨6, Or.inl (by decide), rfl⟩⟩

namespace Dict

theorem lookup_append {α β : Type} [DecidableEq α] (d1 d2 : Dict α β) (a : α) :
    lookup (d1 ++ d2) a =
      match lookup d1 a with
      | some b => some b
      | none => lookup d2 a := by
  induction d1 with
  | nil => simp [lookup]
  | cons kv rest ih =>
    by_cases hk : kv.1 = a
    · simp [lookup_cons, hk]
    · simp only [List.cons_append, lookup_cons, if_neg hk]
      exact ih

end Dict

namespace BinaryQuadraticModel

/-- Diagonal lookup in the diagonal-keyed image of a linear dict. -/
theorem lookup_diag (l : Dict Nat ℚ) (v : Nat) :
    Dict.lookup (l.map (fun kv => ((kv.1, kv.1), kv.2))) (v, v) =
      Dict.lookup l v := by
  induction l with
  | nil => rfl
  | cons kv rest ih =>
    by_cases hk : kv.1 = v
    · simp [Dict.lookup_cons, hk]
    · simp only [List.map_cons, Dict.lookup_cons]
      rw [if_neg (by simp [hk]), if_neg hk, ih]

/-- Off-diagonal lookups miss the diagonal-keyed image entirely. -/
theorem lookup_diag_ne (l : Dict Nat ℚ) (u v : Nat) (h : u ≠ v) :
    Dict.lookup (l.map (fun kv => ((kv.1, kv.1), kv.2))) (u, v) = none := by
  induction l with
  | nil => rfl
  | cons kv rest ih =>
    simp only [List.map_cons, Dict.lookup_cons]
    rw [if_neg (by
      intro he
      rw [Prod.mk.injEq] at he
      exact h (he.1.symm.trans he.2)), ih]

/-- A structurally sane quadratic dict has no diagonal keys. -/
theorem goodQuad_lookup_diag {linear : Dict Nat ℚ} {q : Dict (Nat × Nat) ℚ}
    (hq : goodQuad linear q) (v : Nat) : Dict.lookup q (v, v) = none := by
  cases hl : Dict.lookup q (v, v) with
  | none => rfl
  | some b =>
    have := (hq.1 _ (Dict.lookup_mem hl)).2.2
    exact absurd rfl this

end BinaryQuadraticModel

/-- C8: on a valid BINARY model, `as_qubo()` returns the offset unchanged
together with a mapping holding exactly the diagonal entries
`(v,v) -> linear[v]` and the quadratic entries `(u,v) -> bias` and nothing
else; in particular, on the BINARY model with linear={0:0, 1:0},
quadratic={(0,1):1}, offset=0.0 it yields Q={(0,0):0, (1,1):0, (0,1):1}
and offset 0.0. -/
theorem claim_C8_as_qubo (m : BinaryQuadraticModel) (hw : WfBQM m)
    (hb : m.vartype = .BINARY) :
    (∃ Q, as_qubo m = .ok (Q, m.offset) ∧
      (∀ v, Dict.lookup Q (v, v) = Dict.lookup m.linear v) ∧
      (∀ u v, u ≠ v → Dict.lookup Q (u, v) = Dict.lookup m.quadratic (u, v)) ∧
      (∀ p : Nat × Nat, Dict.member Q p = true ↔
        ((p.1 = p.2 ∧ p.1 ∈ Dict.keys m.linear) ∨ p ∈ Dict.keys m.quadratic)) ∧
      (Dict.keys Q).Nodup) ∧
    (bqmInit [(0, 0), (1, 0)] (toRaw [((0, 1), 1)]) 0 (.tok .BINARY)).bind
      as_qubo = .ok ([((0, 0), 0), ((1, 1), 0), ((0, 1), 1)], 0) := by
  obtain ⟨hn, hq, _⟩ := hw
  have hdiagnodup : (Dict.keys (m.linear.map
      (fun kv => ((kv.1, kv.1), kv.2)))).Nodup := by
    rw [Dict.keys, List.map_map]
    refine (List.pairwise_map).mpr
      (List.Pairwise.imp ?_ (List.pairwise_map.mp hn))
    intro a b hne he
    apply hne
    have h2 : ((a.1, a.1) : Nat × Nat) = (b.1, b.1) := he
    rw [Prod.mk.injEq] at h2
    exact h2.1
  have hq0 : m.linear.foldl (fun q kv => Dict.insert q (kv.1, kv.1) kv.2)
      ([] : Dict (Nat × Nat) ℚ) = m.linear.map (fun kv => ((kv.1, kv.1), kv.2)) := by
    rw [show m.linear.foldl (fun q kv => Dict.insert q (kv.1, kv.1) kv.2)
        ([] : Dict (Nat × Nat) ℚ) =
        Dict.comp (m.linear.map (fun kv => ((kv.1, kv.1), kv.2))) from by
      rw [Dict.comp, List.foldl_map]]
    exact Dict.comp_eq_self _ hdiagnodup
  have hdisj : ∀ p ∈ Dict.keys m.quadratic,
      Dict.member (m.linear.map (fun kv => ((kv.1, kv.1), kv.2))) p = false := by
    intro p hp
    rcases Dict.mem_of_mem_keys hp with ⟨b, hmem⟩
    have hne := (hq.1 (p, b) hmem).2.2
    rw [Dict.member_eq_false_iff]
    exact BinaryQuadraticModel.lookup_diag_ne m.linear p.1 p.2 hne
  have hQ : m.quadratic.foldl (fun q kv => Dict.insert q kv.1 kv.2)
      (m.linear.map (fun kv => ((kv.1, kv.1), kv.2))) =
      m.linear.map (fun kv => ((kv.1, kv.1), kv.2)) ++ m.quadratic :=
    Dict.comp_append_of_nodup m.quadratic _
      (BinaryQuadraticModel.goodQuad_keys_nodup hq) hdisj
  constructor
  · refine ⟨m.linear.map (fun kv => ((kv.1, kv.1), kv.2)) ++ m.quadratic,
      ?_, ?_, ?_, ?_, ?_⟩
    · rw [as_qubo, if_pos hb]
      show Except.ok (m.quadratic.foldl (fun q kv => Dict.insert q kv.1 kv.2)
        (m.linear.foldl (fun q kv => Dict.insert q (kv.1, kv.1) kv.2) []),
        m.offset) = _
      rw [hq0, hQ]
    · intro v
      rw [Dict.lookup_append, BinaryQuadraticModel.lookup_diag]
      cases hl : Dict.lookup m.linear v with
      | none =>
        rw [BinaryQuadraticModel.goodQuad_lookup_diag hq v]
      | some b => rfl
    · intro u v huv
      rw [Dict.lookup_append, BinaryQuadraticModel.lookup_diag_ne m.linear u v huv]
    · intro p
      rw [Dict.member_iff_mem_keys, Dict.keys, List.map_append]
      rw [List.mem_append]
      constructor
      · rintro (hp | hp)
        · rcases List.mem_map.mp hp with ⟨kv2, hm2, he2⟩
          rcases List.mem_map.mp hm2 with ⟨kv, hm, he⟩
          rw [← he] at he2
          refine Or.inl ⟨?_, ?_⟩
          · rw [← he2]
          · rw [show p.1 = kv.1 from by rw [← he2]]
            exact List.mem_map.mpr ⟨kv, hm, rfl⟩
        · exact Or.inr hp
      · rintro (⟨hdiag, hp⟩ | hp)
        · rcases List.mem_map.mp hp with ⟨kv, hm, he⟩
          refine Or.inl (List.mem_map.mpr ⟨(( kv.1, kv.1), kv.2), List.mem_map.mpr ⟨kv, hm, rfl⟩, ?_⟩)
          show (kv.1, kv.1) = p
          have h2 : p = (p.1, p.2) := by rw [Prod.mk.eta]
          rw [h2, ← hdiag, he]
        · exact Or.inr hp
    · rw [Dict.keys, List.map_append, List.nodup_append]
      refine ⟨hdiagnodup, BinaryQuadraticModel.goodQuad_keys_nodup hq, ?_⟩
      intro p hp1 hp2
      rcases Dict.mem_of_mem_keys hp2 with ⟨b, hmem⟩
      have hne := (hq.1 (p, b) hmem).2.2
      rcases List.mem_map.mp hp1 with ⟨kv2, hm2, he2⟩
      rcases List.mem_map.mp hm2 with ⟨kv, _, he⟩
      rw [← he] at he2
      apply hne
      rw [← he2]
  · rfl

/-- The BINARY model with linear={0:0, 1:0}, quadratic={(0,1):1},
offset=0. -/
def modelC : BinaryQuadraticModel :=
  ⟨[(0, 0), (1, 0)], [((0, 1), 1)], 0, .BINARY, [(0, [(1, 1)]), (1, [(0, 1)])]⟩

/-- Witness for C8 on the claim's concrete BINARY model. -/
theorem claim_C8_witness :
    (∃ Q, as_qubo modelC = .ok (Q, modelC.offset) ∧
      (∀ v, Dict.lookup Q (v, v) = Dict.lookup modelC.linear v) ∧
      (∀ u v, u ≠ v → Dict.lookup Q (u, v) = Dict.lookup modelC.quadratic (u, v)) ∧
      (∀ p : Nat × Nat, Dict.member Q p = true ↔
        ((p.1 = p.2 ∧ p.1 ∈ Dict.keys modelC.linear) ∨
          p ∈ Dict.keys modelC.quadratic)) ∧
      (Dict.keys Q).Nodup) ∧
    (bqmInit [(0, 0), (1, 0)] (toRaw [((0, 1), 1)]) 0 (.tok .BINARY)).bind
      as_qubo = .ok ([((0, 0), 0), ((1, 1), 0), ((0, 1), 1)], 0) :=
  claim_C8_as_qubo modelC ⟨by decide, by decide, rfl⟩ rfl

namespace Dict

theorem lookup_mapMul (l : Dict Nat ℚ) (c : ℚ) (a : Nat) :
    lookup (l.map (fun kv => (kv.1, c * kv.2))) a =
      (lookup l a).map (fun t => c * t) := by
  induction l with
  | nil => rfl
  | cons kv rest ih =>
    by_cases hk : kv.1 = a
    · simp [lookup_cons, hk]
    · simp only [List.map_cons, lookup_cons, if_neg hk, ih]

theorem keys_mapMul (l : Dict Nat ℚ) (c : ℚ) :
    keys (l.map (fun kv => (kv.1, c * kv.2))) = keys l := by
  rw [keys, keys, List.map_map]
  rfl

end Dict

namespace BinaryQuadraticModel

theorem incSum_cons (kv : (Nat × Nat) × ℚ) (q : Dict (Nat × Nat) ℚ) (v : Nat) :
    incSum (kv :: q) v =
      ((if kv.1.1 = v then kv.2 else 0) + (if kv.1.2 = v then kv.2 else 0)) +
        incSum q v := by
  rw [incSum, List.map_cons, List.sum_cons, incSum]

@[simp] theorem incSum_nil (v : Nat) : incSum [] v = 0 := rfl

/-- The effect of one `_spin_to_binary` linear update on every lookup. -/
theorem stb_step_lookup (nl : Dict Nat ℚ) (u v x : Nat) (b lu lv : ℚ)
    (hlu : Dict.lookup nl u = some lu)
    (hlv : Dict.lookup (Dict.insert nl u (lu - 2 * b)) v = some lv) :
    Dict.lookup (Dict.insert (Dict.insert nl u (lu - 2 * b)) v (lv - 2 * b)) x =
      (Dict.lookup nl x).map (fun t =>
        t - 2 * ((if u = x then b else 0) + (if v = x then b else 0))) := by
  by_cases hx2 : v = x
  · rw [show Dict.lookup (Dict.insert (Dict.insert nl u (lu - 2 * b)) v
        (lv - 2 * b)) x = some (lv - 2 * b) from by
      rw [← hx2]; exact Dict.lookup_insert_self _ _ _]
    by_cases hx1 : u = x
    · have huv : u = v := hx1.trans hx2.symm
      rw [← huv] at hlv
      rw [Dict.lookup_insert_self] at hlv
      have hlveq : lv = lu - 2 * b := (Option.some.inj hlv).symm
      rw [← hx1, hlu, hlveq, if_pos rfl, if_pos huv.symm]
      show some _ = some _
      congr 1
      ring
    · rw [Dict.lookup_insert_ne nl u v (lu - 2 * b)
        (fun hh => hx1 (hh ▸ hx2))] at hlv
      rw [← hx2, hlv, if_neg (fun hh : u = v => hx1 (hh.trans hx2)), if_pos rfl]
      show some _ = some _
      congr 1
      ring
  · rw [Dict.lookup_insert_ne _ _ _ _ (fun hh => hx2 hh.symm)]
    by_cases hx1 : u = x
    · rw [show Dict.lookup (Dict.insert nl u (lu - 2 * b)) x =
          some (lu - 2 * b) from by rw [← hx1]; exact Dict.lookup_insert_self _ _ _]
      rw [← hx1, hlu, if_pos rfl, if_neg (fun hh => hx2 (hx1 ▸ hh))]
      show some _ = some _
      congr 1
      ring
    · rw [Dict.lookup_insert_ne _ _ _ _ (fun hh => hx1 hh.symm)]
      rw [if_neg hx1, if_neg hx2]
      cases Dict.lookup nl x with
      | none => rfl
      | some t =>
        show some _ = some _
        congr 1
        ring

end BinaryQuadraticModel

namespace BinaryQuadraticModel

/-- The loop body of `_spin_to_binary`. -/
def stbStep (st : Dict Nat ℚ × Dict (Nat × Nat) ℚ) (kv : (Nat × Nat) × ℚ) :
    Except PyError (Dict Nat ℚ × Dict (Nat × Nat) ℚ) := do
  let nq := Dict.insert st.2 kv.1 (4 * kv.2)
  let lu ← Dict.getItem st.1 kv.1.1
  let nl := Dict.insert st.1 kv.1.1 (lu - 2 * kv.2)
  let lv ← Dict.getItem nl kv.1.2
  let nl := Dict.insert nl kv.1.2 (lv - 2 * kv.2)
  pure (nl, nq)

/-- `_spin_to_binary` as an explicit fold over `stbStep`. -/
theorem stb_eq (m : BinaryQuadraticModel) :
    _spin_to_binary m =
      ((m.quadratic.foldlM stbStep
          (Dict.comp (m.linear.map (fun kv => (kv.1, 2 * kv.2))),
            ([] : Dict (Nat × Nat) ℚ))) >>= fun st =>
        .ok (st.1, st.2,
          m.offset + Dict.sumValues m.quadratic - Dict.sumValues m.linear)) := rfl

/-- Full characterization of the `_spin_to_binary` quadratic loop: it
succeeds whenever all endpoints are variables, appends the quadrupled
quadratic entries in order, keeps the linear keys, subtracts twice the
incident quadratic biases from every linear value, and (for unique keys)
lowers the value sum by four times the quadratic bias sum. -/
theorem stb_fold : ∀ (q : Dict (Nat × Nat) ℚ) (nl : Dict Nat ℚ)
    (nq : Dict (Nat × Nat) ℚ),
    (∀ kv ∈ q, Dict.member nl kv.1.1 = true ∧ Dict.member nl kv.1.2 = true) →
    (Dict.keys nq ++ Dict.keys q).Nodup →
    ∃ nl', q.foldlM stbStep (nl, nq) =
        .ok (nl', nq ++ q.map (fun kv => (kv.1, 4 * kv.2))) ∧
      Dict.keys nl' = Dict.keys nl ∧
      (∀ x, Dict.lookup nl' x =
        (Dict.lookup nl x).map (fun t => t - 2 * incSum q x)) ∧
      ((Dict.keys nl).Nodup →
        Dict.sumValues nl' = Dict.sumValues nl - 4 * Dict.sumValues q) := by
  intro q
  induction q with
  | nil =>
    intro nl nq _ _
    refine ⟨nl, by simp, rfl, fun x => ?_, fun _ => by simp⟩
    cases Dict.lookup nl x <;> simp
  | cons kv rest ih =>
    intro nl nq hmem hnodup
    have hh := hmem kv (List.mem_cons_self _ _)
    rcases (Dict.member_eq_true_iff _ _).mp hh.1 with ⟨lu, hlu⟩
    have hknl2 : Dict.keys (Dict.insert nl kv.1.1 (lu - 2 * kv.2)) =
        Dict.keys nl := Dict.keys_insert_of_member _ _ _ hh.1
    have hv2 : Dict.member (Dict.insert nl kv.1.1 (lu - 2 * kv.2)) kv.1.2 = true := by
      rw [Dict.member_iff_mem_keys, hknl2, ← Dict.member_iff_mem_keys]
      exact hh.2
    rcases (Dict.member_eq_true_iff _ _).mp hv2 with ⟨lv, hlv⟩
    have hstep : stbStep (nl, nq) kv = .ok
        (Dict.insert (Dict.insert nl kv.1.1 (lu - 2 * kv.2)) kv.1.2 (lv - 2 * kv.2),
          Dict.insert nq kv.1 (4 * kv.2)) := by
      unfold stbStep
      rw [Dict.getItem, hlu]
      simp only [exceptBind_ok]
      rw [Dict.getItem, hlv]
      simp only [exceptBind_ok, exceptPure]
    set nl3 := Dict.insert (Dict.insert nl kv.1.1 (lu - 2 * kv.2)) kv.1.2
      (lv - 2 * kv.2) with hnl3
    have hknl3 : Dict.keys nl3 = Dict.keys nl := by
      rw [hnl3, Dict.keys_insert_of_member, hknl2]
      exact hv2
    have hfresh : Dict.member nq kv.1 = false := by
      rcases List.nodup_append.mp hnodup with ⟨_, _, hdisj⟩
      cases hm : Dict.member nq kv.1 with
      | false => rfl
      | true =>
        rw [Dict.member_iff_mem_keys] at hm
        exact absurd (hdisj hm) (by
          rw [Dict.keys, List.map_cons]
          exact fun hc => hc (List.mem_cons_self _ _))
    have hnq2 : Dict.insert nq kv.1 (4 * kv.2) = nq ++ [(kv.1, 4 * kv.2)] :=
      Dict.insert_of_not_member _ _ _ hfresh
    have hmem3 : ∀ kv' ∈ rest, Dict.member nl3 kv'.1.1 = true ∧
        Dict.member nl3 kv'.1.2 = true := by
      intro kv' hm
      have := hmem kv' (List.mem_cons_of_mem _ hm)
      rw [Dict.member_iff_mem_keys, Dict.member_iff_mem_keys, hknl3,
        ← Dict.member_iff_mem_keys, ← Dict.member_iff_mem_keys]
      exact this
    have hnodup2 : (Dict.keys (nq ++ [(kv.1, 4 * kv.2)]) ++
        Dict.keys rest).Nodup := by
      have he : Dict.keys (nq ++ [(kv.1, 4 * kv.2)]) ++ Dict.keys rest =
          Dict.keys nq ++ Dict.keys (kv :: rest) := by
        rw [Dict.keys, Dict.keys, Dict.keys, Dict.keys, List.map_append,
          List.map_cons]
        simp [List.append_assoc]
      rw [he]
      exact hnodup
    rcases ih nl3 (nq ++ [(kv.1, 4 * kv.2)]) hmem3 hnodup2 with
      ⟨nl', hfold, hkeys', hlook', hsum'⟩
    refine ⟨nl', ?_, by rw [hkeys', hknl3], ?_, ?_⟩
    · rw [List.foldlM_cons, hstep]
      simp only [exceptBind_ok]
      rw [hnq2, hfold, List.map_cons, List.append_assoc]
      rfl
    · intro x
      rw [hlook' x, hnl3,
        stb_step_lookup nl kv.1.1 kv.1.2 x kv.2 lu lv hlu hlv, incSum_cons]
      cases Dict.lookup nl x with
      | none => rfl
      | some t =>
        show some _ = some _
        congr 1
        ring
    · intro hnl
      have hs2 : Dict.sumValues (Dict.insert nl kv.1.1 (lu - 2 * kv.2)) =
          Dict.sumValues nl - lu + (lu - 2 * kv.2) :=
        Dict.sumValues_insert nl kv.1.1 _ lu hnl hlu
      have hs3 : Dict.sumValues nl3 =
          Dict.sumValues (Dict.insert nl kv.1.1 (lu - 2 * kv.2)) - lv +
            (lv - 2 * kv.2) := by
        rw [hnl3]
        exact Dict.sumValues_insert _ kv.1.2 _ lv (by rwa [hknl2]) hlv
      rw [hsum' (by rwa [hknl3]), hs3, hs2, Dict.sumValues_cons]
      ring

end BinaryQuadraticModel

/-- C5: for every valid SPIN model, `_spin_to_binary` succeeds and produces
the new linear bias `2*h_v - 2*(sum of quadratic biases incident to v)` for
every variable v, the new quadratic bias `4*J_uv` for every pair (in
order), and the new offset `offset + sum(J) - sum(h)`. -/
theorem claim_C5_spin_to_binary (m : BinaryQuadraticModel) (hw : WfBQM m)
    (hs : m.vartype = .SPIN) :
    ∃ nl nq off, _spin_to_binary m = .ok (nl, nq, off) ∧
      (∀ v h, Dict.lookup m.linear v = some h →
        Dict.lookup nl v = some (2 * h - 2 * incSum m.quadratic v)) ∧
      nq = m.quadratic.map (fun kv => (kv.1, 4 * kv.2)) ∧
      off = m.offset + Dict.sumValues m.quadratic - Dict.sumValues m.linear := by
  obtain ⟨hn, hq, _⟩ := hw
  have hcomp : Dict.comp (m.linear.map (fun kv => (kv.1, 2 * kv.2))) =
      m.linear.map (fun kv => (kv.1, 2 * kv.2)) :=
    Dict.comp_eq_self _ (by rw [Dict.keys_mapMul]; exact hn)
  have hmems : ∀ kv ∈ m.quadratic,
      Dict.member (m.linear.map (fun kv => (kv.1, 2 * kv.2))) kv.1.1 = true ∧
      Dict.member (m.linear.map (fun kv => (kv.1, 2 * kv.2))) kv.1.2 = true := by
    intro kv hm
    constructor
    · rw [Dict.member_iff_mem_keys, Dict.keys_mapMul, ← Dict.member_iff_mem_keys]
      exact (hq.1 kv hm).1
    · rw [Dict.member_iff_mem_keys, Dict.keys_mapMul, ← Dict.member_iff_mem_keys]
      exact (hq.1 kv hm).2.1
  have hnod : (Dict.keys ([] : Dict (Nat × Nat) ℚ) ++
      Dict.keys m.quadratic).Nodup := by
    rw [show Dict.keys ([] : Dict (Nat × Nat) ℚ) = [] from rfl, List.nil_append]
    exact BinaryQuadraticModel.goodQuad_keys_nodup hq
  rcases BinaryQuadraticModel.stb_fold m.quadratic
    (m.linear.map (fun kv => (kv.1, 2 * kv.2))) [] hmems hnod with
    ⟨nl', hfold, _, hlook, _⟩
  refine ⟨nl', m.quadratic.map (fun kv => (kv.1, 4 * kv.2)),
    m.offset + Dict.sumValues m.quadratic - Dict.sumValues m.linear,
    ?_, ?_, rfl, rfl⟩
  · rw [BinaryQuadraticModel.stb_eq, hcomp, hfold]
    simp only [exceptBind_ok, List.nil_append]
  · intro v h hlv
    rw [hlook v, Dict.lookup_mapMul, hlv]
    rfl

/-- A small valid SPIN model with one interaction, for the C5 witness. -/
def modelD : BinaryQuadraticModel :=
  ⟨[(0, 1), (1, 2)], [((0, 1), 3)], 5, .SPIN, [(0, [(1, 3)]), (1, [(0, 3)])]⟩

/-- Witness for C5 on a concrete SPIN model. -/
theorem claim_C5_witness :
    ∃ nl nq off, _spin_to_binary modelD = .ok (nl, nq, off) ∧
      (∀ v h, Dict.lookup modelD.linear v = some h →
        Dict.lookup nl v = some (2 * h - 2 * incSum modelD.quadratic v)) ∧
      nq = modelD.quadratic.map (fun kv => (kv.1, 4 * kv.2)) ∧
      off = modelD.offset + Dict.sumValues modelD.quadratic -
        Dict.sumValues modelD.linear :=
  claim_C5_spin_to_binary modelD ⟨by decide, by decide, rfl⟩ rfl

namespace Dict

/-- Two in-place updates at distinct keys commute when the first key is
present. -/
theorem insert_comm_of_member {α β : Type} [DecidableEq α] :
    ∀ (d : Dict α β) (u v : α) (X Y : β), u ≠ v → member d u = true →
    insert (insert d u X) v Y = insert (insert d v Y) u X := by
  intro d
  induction d with
  | nil => intro u v X Y _ hu; cases hu
  | cons kv rest ih =>
    intro u v X Y hne hu
    by_cases hku : kv.1 = u
    · have hkv : kv.1 ≠ v := by rw [hku]; exact hne
      simp [insert, hku, hkv, hne, Ne.symm hne]
    · by_cases hkv : kv.1 = v
      · simp [insert, hku, hkv, hne, Ne.symm hne]
      · have hu' : member rest u = true := by
          rw [member_eq_true_iff] at hu ⊢
          rcases hu with ⟨c, hc⟩
          rw [lookup_cons, if_neg hku] at hc
          exact ⟨c, hc⟩
        simp [insert, hku, hkv, ih u v X Y hne hu']

end Dict

namespace BinaryQuadraticModel

/-- Inversion of a successful `__init__`. -/
theorem bqmInit_ok_inv {linear : Dict Nat ℚ} {raw : Dict (List Nat) ℚ}
    {offset : ℚ} {vt : VartypeInput} {m : BinaryQuadraticModel}
    (h : bqmInit linear raw offset vt = .ok m) :
    ∃ w qp, normalizeVartype vt = .ok w ∧
      checkQuadKeys linear raw = .ok qp ∧
      buildAdj (adj0 linear) qp = .ok m.adj ∧
      m = ⟨linear, qp, offset, w, m.adj⟩ := by
  rw [bqmInit_eq] at h
  cases hv : normalizeVartype vt with
  | error e =>
    rw [hv] at h
    exact Except.noConfusion h
  | ok w =>
    rw [hv] at h
    simp only [exceptBind_ok] at h
    cases hc : checkQuadKeys linear raw with
    | error e =>
      rw [hc] at h
      exact Except.noConfusion h
    | ok qp =>
      rw [hc] at h
      simp only [exceptBind_ok] at h
      cases hb : buildAdj (adj0 linear) qp with
      | error e =>
        rw [hb] at h
        exact Except.noConfusion h
      | ok A =>
        rw [hb] at h
        simp only [exceptBind_ok, Except.ok.injEq] at h
        refine ⟨w, qp, rfl, rfl, ?_, ?_⟩
        · rw [← h]
          exact hb
        · rw [← h]

/-- Inversion of the key-validation pass on an already pair-keyed dict. -/
theorem checkQuadKeys_toRaw_inv (linear : Dict Nat ℚ) :
    ∀ (q q2 : Dict (Nat × Nat) ℚ),
    checkQuadKeys linear (toRaw q) = .ok q2 →
    q2 = q ∧ ∀ kv ∈ q, Dict.member linear kv.1.1 = true ∧
      Dict.member linear kv.1.2 = true := by
  intro q
  induction q with
  | nil =>
    intro q2 h
    refine ⟨(Except.ok.inj h).symm, fun kv hm => absurd hm (List.not_mem_nil kv)⟩
  | cons kv rest ih =>
    intro q2 h
    rw [show toRaw (kv :: rest) = ([kv.1.1, kv.1.2], kv.2) :: toRaw rest from rfl,
      checkQuadKeys] at h
    cases hc : (Dict.member linear kv.1.1 && Dict.member linear kv.1.2) with
    | false =>
      rw [hc] at h
      simp only [Bool.false_eq_true, if_false] at h
      exact Except.noConfusion h
    | true =>
      rw [hc] at h
      simp only [if_true] at h
      cases hr : checkQuadKeys linear (toRaw rest) with
      | error e =>
        rw [hr] at h
        exact Except.noConfusion h
      | ok r =>
        rw [hr] at h
        simp only [exceptBind_ok, Except.ok.injEq] at h
        rcases ih r hr with ⟨hre, hmem⟩
        rw [Bool.and_eq_true] at hc
        constructor
        · rw [← h, hre]
        · intro kv' hm
          rcases List.mem_cons.mp hm with he | hm'
          · rw [he]
            exact ⟨hc.1, hc.2⟩
          · exact hmem kv' hm'

/-- A successful adjacency step also succeeds, with the same result, on the
reversed pair. -/
theorem adjStep_rev {a a1 : Dict Nat (Dict Nat ℚ)} {kv : (Nat × Nat) × ℚ}
    (h : adjStep a kv = .ok a1) :
    adjStep a ((kv.1.2, kv.1.1), kv.2) = .ok a1 := by
  rcases adjStep_ok_inv h with ⟨au, av, hne, hau, hav, hmau, hmav, he⟩
  have h2 := @adjStep_ok a ((kv.1.2, kv.1.1), kv.2) av au
    (fun hh => hne hh.symm) hav hau hmav hmau
  rw [h2, he]
  rw [Dict.insert_comm_of_member a kv.1.2 kv.1.1 _ _ (fun hh => hne hh.symm)
    (by rw [Dict.member_eq_true_iff]; exact ⟨av, hav⟩)]

/-- Reversing every pair leaves a successful adjacency build unchanged. -/
theorem buildAdj_rev : ∀ (q : Dict (Nat × Nat) ℚ) (a A : Dict Nat (Dict Nat ℚ)),
    buildAdj a q = .ok A →
    buildAdj a (q.map (fun kv => ((kv.1.2, kv.1.1), kv.2))) = .ok A := by
  intro q
  induction q with
  | nil => intro a A h; exact h
  | cons kv rest ih =>
    intro a A h
    rw [buildAdj, List.foldlM_cons] at h
    cases hstep : adjStep a kv with
    | error e =>
      rw [hstep] at h
      exact Except.noConfusion h
    | ok a1 =>
      rw [hstep] at h
      rw [List.map_cons, buildAdj, List.foldlM_cons, adjStep_rev hstep]
      exact ih a1 A h

end BinaryQuadraticModel

/-- C9: constructing a model from a quadratic mapping and from its fully
edge-reversed counterpart produces literally identical adjacency
structures, and the two models compare equal under `__eq__`. -/
theorem claim_C9_reversal (linear : Dict Nat ℚ) (q : Dict (Nat × Nat) ℚ)
    (offset : ℚ) (vt : VartypeInput) (m : BinaryQuadraticModel)
    (hn : (Dict.keys linear).Nodup)
    (hm : bqmInit linear (toRaw q) offset vt = .ok m) :
    ∃ m', bqmInit linear (toRaw (q.map (fun kv => ((kv.1.2, kv.1.1), kv.2))))
        offset vt = .ok m' ∧ m'.adj = m.adj ∧ bqmEq m' m = true := by
  rcases bqmInit_ok_inv hm with ⟨w, qp, hv, hc, hb, hme⟩
  rcases checkQuadKeys_toRaw_inv linear q qp hc with ⟨hqe, hmem⟩
  rw [hqe] at hc hb hme
  have hcrev : checkQuadKeys linear
      (toRaw (q.map (fun kv => ((kv.1.2, kv.1.1), kv.2)))) =
      .ok (q.map (fun kv => ((kv.1.2, kv.1.1), kv.2))) := by
    apply checkQuadKeys_toRaw
    intro kv hmv
    rcases List.mem_map.mp hmv with ⟨kv0, hm0, he0⟩
    rw [← he0]
    exact ⟨(hmem kv0 hm0).2, (hmem kv0 hm0).1⟩
  have hbrev := buildAdj_rev q (adj0 linear) m.adj hb
  have hml : m.linear = linear := by rw [hme]
  have hmv2 : m.vartype = w := by rw [hme]
  have hmo : m.offset = offset := by rw [hme]
  have hadjn := buildAdj_nodup q (adj0 linear) m.adj hb
    (Dict.keys_comp_nodup _)
    (fun kv hm2 => by rw [values_adj0 hm2]; exact List.nodup_nil)
  refine ⟨⟨linear, q.map (fun kv => ((kv.1.2, kv.1.1), kv.2)), offset, w, m.adj⟩,
    ?_, rfl, ?_⟩
  · rw [bqmInit_eq, hv]
    simp only [exceptBind_ok]
    rw [hcrev]
    simp only [exceptBind_ok]
    rw [hbrev]
    simp only [exceptBind_ok]
  · have hb1 : Dict.beq linear m.linear = true := by
      rw [hml]
      exact Dict.beq_refl _ hn
    have hb2 : Dict.beqBy Dict.beq m.adj m.adj = true :=
      Dict.beqBy_refl _ _ hadjn.1
        (fun kv hm2 => Dict.beq_refl _ (hadjn.2 kv hm2))
    have hb3 : decide (offset = m.offset) = true := by
      rw [hmo]
      simp
    simp only [bqmEq]
    rw [if_pos (show w = m.vartype from hmv2.symm), hb1, hb2, hb3]
    rfl

/-- Witness for C9 on the concrete model with one interaction (0,1). -/
theorem claim_C9_witness :
    ∃ m', bqmInit [(0, 0), (1, 0)]
        (toRaw (([((0, 1), (1 : ℚ))]).map (fun kv => ((kv.1.2, kv.1.1), kv.2))))
        0 (.tok .BINARY) = .ok m' ∧ m'.adj = modelC.adj ∧
        bqmEq m' modelC = true :=
  claim_C9_reversal [(0, 0), (1, 0)] [((0, 1), 1)] 0 (.tok .BINARY) modelC
    (by decide) rfl

namespace Dict

theorem sumValues_mapMul {α : Type} [DecidableEq α] (l : Dict α ℚ) (c : ℚ) :
    sumValues (l.map (fun kv => (kv.1, c * kv.2))) = c * sumValues l := by
  induction l with
  | nil => simp
  | cons kv rest ih =>
    rw [List.map_cons, sumValues_cons, sumValues_cons, ih]
    ring

end Dict

namespace BinaryQuadraticModel

theorem incSum_mapMul (q : Dict (Nat × Nat) ℚ) (c : ℚ) (x : Nat) :
    incSum (q.map (fun kv => (kv.1, c * kv.2))) x = c * incSum q x := by
  induction q with
  | nil => simp
  | cons kv rest ih =>
    rw [List.map_cons, incSum_cons, incSum_cons, ih]
    by_cases h1 : kv.1.1 = x <;> by_cases h2 : kv.1.2 = x <;>
      simp [h1, h2] <;> ring

/-- Structural sanity survives rescaling the quadratic biases and moving to
a linear dict with the same key set. -/
theorem goodQuad_map (linear nl : Dict Nat ℚ) (q : Dict (Nat × Nat) ℚ) (c : ℚ)
    (hkeys : ∀ x, Dict.member nl x = Dict.member linear x)
    (hq : goodQuad linear q) :
    goodQuad nl (q.map (fun kv => (kv.1, c * kv.2))) := by
  constructor
  · intro kv hm
    rcases List.mem_map.mp hm with ⟨kv0, hm0, he0⟩
    have h0 := hq.1 kv0 hm0
    rw [← he0]
    exact ⟨by rw [hkeys]; exact h0.1, by rw [hkeys]; exact h0.2.1, h0.2.2⟩
  · refine (List.pairwise_map).mpr (List.Pairwise.imp ?_ hq.2)
    intro a b hrel
    exact hrel

/-- The loop body of `_binary_to_spin`. -/
def btsStep (st : Dict Nat ℚ × Dict (Nat × Nat) ℚ × ℚ) (kv : (Nat × Nat) × ℚ) :
    Except PyError (Dict Nat ℚ × Dict (Nat × Nat) ℚ × ℚ) := do
  let J := Dict.insert st.2.1 kv.1 ((1 / 4 : ℚ) * kv.2)
  let hu ← Dict.getItem st.1 kv.1.1
  let h := Dict.insert st.1 kv.1.1 (hu + (1 / 4 : ℚ) * kv.2)
  let hv ← Dict.getItem h kv.1.2
  let h := Dict.insert h kv.1.2 (hv + (1 / 4 : ℚ) * kv.2)
  pure (h, J, st.2.2 + kv.2)

/-- `_binary_to_spin` as an explicit fold over `btsStep`. -/
theorem bts_eq (m : BinaryQuadraticModel) :
    _binary_to_spin m =
      ((m.quadratic.foldlM btsStep
          ((m.linear.foldl (fun (st : Dict Nat ℚ × ℚ) kv =>
              (Dict.insert st.1 kv.1 ((1 / 2 : ℚ) * kv.2), st.2 + kv.2))
              (([] : Dict Nat ℚ), (0 : ℚ))).1,
            ([] : Dict (Nat × Nat) ℚ), (0 : ℚ))) >>= fun st =>
        .ok (st.1, st.2.1,
          m.offset + (1 / 2 : ℚ) *
            (m.linear.foldl (fun (st : Dict Nat ℚ × ℚ) kv =>
              (Dict.insert st.1 kv.1 ((1 / 2 : ℚ) * kv.2), st.2 + kv.2))
              (([] : Dict Nat ℚ), (0 : ℚ))).2 +
          (1 / 4 : ℚ) * st.2.2)) := rfl

/-- The first component of the `_binary_to_spin` linear pass. -/
theorem btsLin_fst : ∀ (l : List (Nat × ℚ)) (d : Dict Nat ℚ) (s : ℚ),
    (l.foldl (fun (st : Dict Nat ℚ × ℚ) kv =>
      (Dict.insert st.1 kv.1 ((1 / 2 : ℚ) * kv.2), st.2 + kv.2)) (d, s)).1 =
    l.foldl (fun dd kv => Dict.insert dd kv.1 ((1 / 2 : ℚ) * kv.2)) d := by
  intro l
  induction l with
  | nil => intro d s; rfl
  | cons kv rest ih => intro d s; rw [List.foldl_cons, List.foldl_cons, ih]

/-- The second component of the `_binary_to_spin` linear pass. -/
theorem btsLin_snd : ∀ (l : List (Nat × ℚ)) (d : Dict Nat ℚ) (s : ℚ),
    (l.foldl (fun (st : Dict Nat ℚ × ℚ) kv =>
      (Dict.insert st.1 kv.1 ((1 / 2 : ℚ) * kv.2), st.2 + kv.2)) (d, s)).2 =
    s + (l.map Prod.snd).sum := by
  intro l
  induction l with
  | nil => intro d s; simp
  | cons kv rest ih =>
    intro d s
    rw [List.foldl_cons, ih, List.map_cons, List.sum_cons]
    ring

/-- The effect of one `_binary_to_spin` linear update on every lookup. -/
theorem bts_step_lookup (h : Dict Nat ℚ) (u v x : Nat) (b hu hv : ℚ)
    (hlu : Dict.lookup h u = some hu)
    (hlv : Dict.lookup (Dict.insert h u (hu + (1 / 4 : ℚ) * b)) v = some hv) :
    Dict.lookup (Dict.insert (Dict.insert h u (hu + (1 / 4 : ℚ) * b)) v
      (hv + (1 / 4 : ℚ) * b)) x =
      (Dict.lookup h x).map (fun t =>
        t + (1 / 4 : ℚ) *
          ((if u = x then b else 0) + (if v = x then b else 0))) := by
  by_cases hx2 : v = x
  · rw [show Dict.lookup (Dict.insert (Dict.insert h u (hu + (1 / 4 : ℚ) * b)) v
        (hv + (1 / 4 : ℚ) * b)) x = some (hv + (1 / 4 : ℚ) * b) from by
      rw [← hx2]; exact Dict.lookup_insert_self _ _ _]
    by_cases hx1 : u = x
    · have huv : u = v := hx1.trans hx2.symm
      rw [← huv] at hlv
      rw [Dict.lookup_insert_self] at hlv
      have hlveq : hv = hu + (1 / 4 : ℚ) * b := (Option.some.inj hlv).symm
      rw [← hx1, hlu, hlveq, if_pos rfl, if_pos huv.symm]
      show some _ = some _
      congr 1
      ring
    · rw [Dict.lookup_insert_ne h u v (hu + (1 / 4 : ℚ) * b)
        (fun hh => hx1 (hh ▸ hx2))] at hlv
      rw [← hx2, hlv, if_neg (fun hh : u = v => hx1 (hh.trans hx2)), if_pos rfl]
      show some _ = some _
      congr 1
      ring
  · rw [Dict.lookup_insert_ne _ _ _ _ (fun hh => hx2 hh.symm)]
    by_cases hx1 : u = x
    · rw [show Dict.lookup (Dict.insert h u (hu + (1 / 4 : ℚ) * b)) x =
          some (hu + (1 / 4 : ℚ) * b) from by
        rw [← hx1]; exact Dict.lookup_insert_self _ _ _]
      rw [← hx1, hlu, if_pos rfl, if_neg (fun hh => hx2 (hx1 ▸ hh))]
      show some _ = some _
      congr 1
      ring
    · rw [Dict.lookup_insert_ne _ _ _ _ (fun hh => hx1 hh.symm)]
      rw [if_neg hx1, if_neg hx2]
      cases Dict.lookup h x with
      | none => rfl
      | some t =>
        show some _ = some _
        congr 1
        ring

end BinaryQuadraticModel

namespace BinaryQuadraticModel

/-- Full characterization of the `_binary_to_spin` quadratic loop, mirror of
`stb_fold`. -/
theorem bts_fold : ∀ (q : Dict (Nat × Nat) ℚ) (h : Dict Nat ℚ)
    (J : Dict (Nat × Nat) ℚ) (qoff : ℚ),
    (∀ kv ∈ q, Dict.member h kv.1.1 = true ∧ Dict.member h kv.1.2 = true) →
    (Dict.keys J ++ Dict.keys q).Nodup →
    ∃ h', q.foldlM btsStep (h, J, qoff) =
        .ok (h', J ++ q.map (fun kv => (kv.1, (1 / 4 : ℚ) * kv.2)),
          qoff + Dict.sumValues q) ∧
      Dict.keys h' = Dict.keys h ∧
      (∀ x, Dict.lookup h' x =
        (Dict.lookup h x).map (fun t => t + (1 / 4 : ℚ) * incSum q x)) ∧
      ((Dict.keys h).Nodup →
        Dict.sumValues h' = Dict.sumValues h + (1 / 2 : ℚ) * Dict.sumValues q) := by
  intro q
  induction q with
  | nil =>
    intro h J qoff _ _
    refine ⟨h, by simp, rfl, fun x => ?_, fun _ => by simp⟩
    cases Dict.lookup h x <;> simp
  | cons kv rest ih =>
    intro h J qoff hmem hnodup
    have hh := hmem kv (List.mem_cons_self _ _)
    rcases (Dict.member_eq_true_iff _ _).mp hh.1 with ⟨hu, hlu⟩
    have hkh2 : Dict.keys (Dict.insert h kv.1.1 (hu + (1 / 4 : ℚ) * kv.2)) =
        Dict.keys h := Dict.keys_insert_of_member _ _ _ hh.1
    have hv2 : Dict.member (Dict.insert h kv.1.1 (hu + (1 / 4 : ℚ) * kv.2))
        kv.1.2 = true := by
      rw [Dict.member_iff_mem_keys, hkh2, ← Dict.member_iff_mem_keys]
      exact hh.2
    rcases (Dict.member_eq_true_iff _ _).mp hv2 with ⟨hv, hlv⟩
    have hstep : btsStep (h, J, qoff) kv = .ok
        (Dict.insert (Dict.insert h kv.1.1 (hu + (1 / 4 : ℚ) * kv.2)) kv.1.2
          (hv + (1 / 4 : ℚ) * kv.2),
          Dict.insert J kv.1 ((1 / 4 : ℚ) * kv.2), qoff + kv.2) := by
      unfold btsStep
      rw [Dict.getItem, hlu]
      simp only [exceptBind_ok]
      rw [Dict.getItem, hlv]
      simp only [exceptBind_ok, exceptPure]
    set h3 := Dict.insert (Dict.insert h kv.1.1 (hu + (1 / 4 : ℚ) * kv.2))
      kv.1.2 (hv + (1 / 4 : ℚ) * kv.2) with hh3
    have hkh3 : Dict.keys h3 = Dict.keys h := by
      rw [hh3, Dict.keys_insert_of_member, hkh2]
      exact hv2
    have hfresh : Dict.member J kv.1 = false := by
      rcases List.nodup_append.mp hnodup with ⟨_, _, hdisj⟩
      cases hm : Dict.member J kv.1 with
      | false => rfl
      | true =>
        rw [Dict.member_iff_mem_keys] at hm
        exact absurd (hdisj hm) (by
          rw [Dict.keys, List.map_cons]
          exact fun hc => hc (List.mem_cons_self _ _))
    have hJ2 : Dict.insert J kv.1 ((1 / 4 : ℚ) * kv.2) =
        J ++ [(kv.1, (1 / 4 : ℚ) * kv.2)] :=
      Dict.insert_of_not_member _ _ _ hfresh
    have hmem3 : ∀ kv' ∈ rest, Dict.member h3 kv'.1.1 = true ∧
        Dict.member h3 kv'.1.2 = true := by
      intro kv' hm
      have := hmem kv' (List.mem_cons_of_mem _ hm)
      rw [Dict.member_iff_mem_keys, Dict.member_iff_mem_keys, hkh3,
        ← Dict.member_iff_mem_keys, ← Dict.member_iff_mem_keys]
      exact this
    have hnodup2 : (Dict.keys (J ++ [(kv.1, (1 / 4 : ℚ) * kv.2)]) ++
        Dict.keys rest).Nodup := by
      have he : Dict.keys (J ++ [(kv.1, (1 / 4 : ℚ) * kv.2)]) ++ Dict.keys rest =
          Dict.keys J ++ Dict.keys (kv :: rest) := by
        rw [Dict.keys, Dict.keys, Dict.keys, Dict.keys, List.map_append,
          List.map_cons]
        simp [List.append_assoc]
      rw [he]
      exact hnodup
    rcases ih h3 (J ++ [(kv.1, (1 / 4 : ℚ) * kv.2)]) (qoff + kv.2) hmem3
      hnodup2 with ⟨h', hfold, hkeys', hlook', hsum'⟩
    refine ⟨h', ?_, by rw [hkeys', hkh3], ?_, ?_⟩
    · rw [List.foldlM_cons, hstep]
      simp only [exceptBind_ok]
      rw [hJ2, hfold, List.map_cons, List.append_assoc, Dict.sumValues_cons,
        ← add_assoc]
      rfl
    · intro x
      rw [hlook' x, hh3,
        bts_step_lookup h kv.1.1 kv.1.2 x kv.2 hu hv hlu hlv, incSum_cons]
      cases Dict.lookup h x with
      | none => rfl
      | some t =>
        show some _ = some _
        congr 1
        ring
    · intro hnl
      have hs2 : Dict.sumValues (Dict.insert h kv.1.1 (hu + (1 / 4 : ℚ) * kv.2)) =
          Dict.sumValues h - hu + (hu + (1 / 4 : ℚ) * kv.2) :=
        Dict.sumValues_insert h kv.1.1 _ hu hnl hlu
      have hs3 : Dict.sumValues h3 =
          Dict.sumValues (Dict.insert h kv.1.1 (hu + (1 / 4 : ℚ) * kv.2)) - hv +
            (hv + (1 / 4 : ℚ) * kv.2) := by
        rw [hh3]
        exact Dict.sumValues_insert _ kv.1.2 _ hv (by rwa [hkh2]) hlv
      rw [hsum' (by rwa [hkh3]), hs3, hs2, Dict.sumValues_cons]
      ring

end BinaryQuadraticModel

namespace BinaryQuadraticModel

/-- Aggregate characterization of `_spin_to_binary` on a well-formed
model. -/
theorem stb_full (m : BinaryQuadraticModel) (hn : (Dict.keys m.linear).Nodup)
    (hq : goodQuad m.linear m.quadratic) :
    ∃ nl, _spin_to_binary m = .ok (nl,
        m.quadratic.map (fun kv => (kv.1, 4 * kv.2)),
        m.offset + Dict.sumValues m.quadratic - Dict.sumValues m.linear) ∧
      Dict.keys nl = Dict.keys m.linear ∧
      (∀ x, Dict.lookup nl x = (Dict.lookup m.linear x).map
        (fun t => 2 * t - 2 * incSum m.quadratic x)) ∧
      Dict.sumValues nl =
        2 * Dict.sumValues m.linear - 4 * Dict.sumValues m.quadratic := by
  have hcomp : Dict.comp (m.linear.map (fun kv => (kv.1, 2 * kv.2))) =
      m.linear.map (fun kv => (kv.1, 2 * kv.2)) :=
    Dict.comp_eq_self _ (by rw [Dict.keys_mapMul]; exact hn)
  have hmems : ∀ kv ∈ m.quadratic,
      Dict.member (m.linear.map (fun kv => (kv.1, 2 * kv.2))) kv.1.1 = true ∧
      Dict.member (m.linear.map (fun kv => (kv.1, 2 * kv.2))) kv.1.2 = true := by
    intro kv hm
    constructor
    · rw [Dict.member_iff_mem_keys, Dict.keys_mapMul, ← Dict.member_iff_mem_keys]
      exact (hq.1 kv hm).1
    · rw [Dict.member_iff_mem_keys, Dict.keys_mapMul, ← Dict.member_iff_mem_keys]
      exact (hq.1 kv hm).2.1
  have hnod : (Dict.keys ([] : Dict (Nat × Nat) ℚ) ++
      Dict.keys m.quadratic).Nodup := by
    rw [show Dict.keys ([] : Dict (Nat × Nat) ℚ) = [] from rfl, List.nil_append]
    exact goodQuad_keys_nodup hq
  rcases stb_fold m.quadratic (m.linear.map (fun kv => (kv.1, 2 * kv.2))) []
    hmems hnod with ⟨nl, hfold, hkeys, hlook, hsum⟩
  refine ⟨nl, ?_, ?_, ?_, ?_⟩
  · rw [stb_eq, hcomp, hfold]
    simp only [exceptBind_ok, List.nil_append]
  · rw [hkeys, Dict.keys_mapMul]
  · intro x
    rw [hlook x, Dict.lookup_mapMul]
    cases Dict.lookup m.linear x with
    | none => rfl
    | some t => rfl
  · rw [hsum (by rw [Dict.keys_mapMul]; exact hn), Dict.sumValues_mapMul]

/-- Aggregate characterization of `_binary_to_spin` on a well-formed
model. -/
theorem bts_full (m : BinaryQuadraticModel) (hn : (Dict.keys m.linear).Nodup)
    (hq : goodQuad m.linear m.quadratic) :
    ∃ h, _binary_to_spin m = .ok (h,
        m.quadratic.map (fun kv => (kv.1, (1 / 4 : ℚ) * kv.2)),
        m.offset + (1 / 2 : ℚ) * Dict.sumValues m.linear +
          (1 / 4 : ℚ) * Dict.sumValues m.quadratic) ∧
      Dict.keys h = Dict.keys m.linear ∧
      (∀ x, Dict.lookup h x = (Dict.lookup m.linear x).map
        (fun t => (1 / 2 : ℚ) * t + (1 / 4 : ℚ) * incSum m.quadratic x)) ∧
      Dict.sumValues h = (1 / 2 : ℚ) * Dict.sumValues m.linear +
        (1 / 2 : ℚ) * Dict.sumValues m.quadratic := by
  have hfst : (m.linear.foldl (fun (st : Dict Nat ℚ × ℚ) kv =>
      (Dict.insert st.1 kv.1 ((1 / 2 : ℚ) * kv.2), st.2 + kv.2))
      (([] : Dict Nat ℚ), (0 : ℚ))).1 =
      m.linear.map (fun kv => (kv.1, (1 / 2 : ℚ) * kv.2)) := by
    rw [btsLin_fst]
    rw [show m.linear.foldl (fun dd kv =>
        Dict.insert dd kv.1 ((1 / 2 : ℚ) * kv.2)) ([] : Dict Nat ℚ) =
        Dict.comp (m.linear.map (fun kv => (kv.1, (1 / 2 : ℚ) * kv.2))) from by
      rw [Dict.comp, List.foldl_map]]
    exact Dict.comp_eq_self _ (by rw [Dict.keys_mapMul]; exact hn)
  have hsnd : (m.linear.foldl (fun (st : Dict Nat ℚ × ℚ) kv =>
      (Dict.insert st.1 kv.1 ((1 / 2 : ℚ) * kv.2), st.2 + kv.2))
      (([] : Dict Nat ℚ), (0 : ℚ))).2 = Dict.sumValues m.linear := by
    rw [btsLin_snd, zero_add, ← Dict.sumValues_eq]
  have hmems : ∀ kv ∈ m.quadratic,
      Dict.member (m.linear.map (fun kv => (kv.1, (1 / 2 : ℚ) * kv.2))) kv.1.1 = true ∧
      Dict.member (m.linear.map (fun kv => (kv.1, (1 / 2 : ℚ) * kv.2))) kv.1.2 = true := by
    intro kv hm
    constructor
    · rw [Dict.member_iff_mem_keys, Dict.keys_mapMul, ← Dict.member_iff_mem_keys]
      exact (hq.1 kv hm).1
    · rw [Dict.member_iff_mem_keys, Dict.keys_mapMul, ← Dict.member_iff_mem_keys]
      exact (hq.1 kv hm).2.1
  have hnod : (Dict.keys ([] : Dict (Nat × Nat) ℚ) ++
      Dict.keys m.quadratic).Nodup := by
    rw [show Dict.keys ([] : Dict (Nat × Nat) ℚ) = [] from rfl, List.nil_append]
    exact goodQuad_keys_nodup hq
  rcases bts_fold m.quadratic
    (m.linear.map (fun kv => (kv.1, (1 / 2 : ℚ) * kv.2))) [] 0
    hmems hnod with ⟨h, hfold, hkeys, hlook, hsum⟩
  refine ⟨h, ?_, ?_, ?_, ?_⟩
  · rw [bts_eq, hfst, hsnd, hfold]
    simp only [exceptBind_ok, List.nil_append, zero_add]
  · rw [hkeys, Dict.keys_mapMul]
  · intro x
    rw [hlook x, Dict.lookup_mapMul]
    cases Dict.lookup m.linear x with
    | none => rfl
    | some t => rfl
  · rw [hsum (by rw [Dict.keys_mapMul]; exact hn), Dict.sumValues_mapMul]

/-- `change_vartype` as an explicit bind chain. -/
theorem change_vartype_eq (m : BinaryQuadraticModel) (vt : VartypeInput) :
    change_vartype m vt =
      (normalizeVartype vt >>= fun vartype =>
        if vartype = m.vartype then copy m
        else if m.vartype = .SPIN ∧ vartype = .BINARY then
          (_spin_to_binary m >>= fun r =>
            bqmInit r.1 (toRaw r.2.1) r.2.2 (.tok .BINARY))
        else if m.vartype = .BINARY ∧ vartype = .SPIN then
          (_binary_to_spin m >>= fun r =>
            bqmInit r.1 (toRaw r.2.1) r.2.2 (.tok .SPIN))
        else .error .runtimeError) := rfl

end BinaryQuadraticModel

namespace BinaryQuadraticModel

/-- SPIN → BINARY → SPIN through `change_vartype` reproduces the model
exactly: the rational arithmetic is exact, so the round trip is the
identity on valid SPIN models. -/
theorem roundtrip_spin (m : BinaryQuadraticModel)
    (hn : (Dict.keys m.linear).Nodup) (hq : goodQuad m.linear m.quadratic)
    (hv : Valid m) (hs : m.vartype = .SPIN) :
    (change_vartype m (.tok .BINARY) >>= fun mb =>
      change_vartype mb (.tok .SPIN)) = .ok m := by
  obtain ⟨nl, hstb, hkeys, hlook, hsum⟩ := stb_full m hn hq
  have hmemnl : ∀ x, Dict.member nl x = Dict.member m.linear x := by
    intro x
    have h1 : Dict.member nl x = true ↔ Dict.member m.linear x = true := by
      rw [Dict.member_iff_mem_keys, Dict.member_iff_mem_keys, hkeys]
    cases hb : Dict.member m.linear x with
    | true => exact h1.mpr hb
    | false =>
      cases hc : Dict.member nl x with
      | false => rfl
      | true =>
        rw [hb] at h1
        exact absurd (h1.mp hc) Bool.false_ne_true
  have hq4 : goodQuad nl (m.quadratic.map (fun kv => (kv.1, 4 * kv.2))) :=
    goodQuad_map m.linear nl m.quadratic 4 hmemnl hq
  obtain ⟨A1, hinit1⟩ := bqmInit_ok nl
    (m.quadratic.map (fun kv => (kv.1, 4 * kv.2)))
    (m.offset + Dict.sumValues m.quadratic - Dict.sumValues m.linear)
    .BINARY hq4
  have h1 : change_vartype m (.tok .BINARY) =
      .ok ⟨nl, m.quadratic.map (fun kv => (kv.1, 4 * kv.2)),
        m.offset + Dict.sumValues m.quadratic - Dict.sumValues m.linear,
        .BINARY, A1⟩ := by
    rw [change_vartype_eq]
    rw [show normalizeVartype (.tok .BINARY) = .ok Vartype.BINARY from rfl]
    simp only [exceptBind_ok]
    have hcne : ¬(Vartype.BINARY = m.vartype) := by
      rw [hs]
      decide
    rw [if_neg hcne, if_pos (⟨hs, trivial⟩ : m.vartype = Vartype.SPIN ∧ True),
      hstb]
    simp only [exceptBind_ok]
    exact hinit1
  have hnl2 : (Dict.keys nl).Nodup := by
    rw [hkeys]
    exact hn
  obtain ⟨h2l, hbts0, hkeys20, hlook20, hsum20⟩ :=
    bts_full ⟨nl, m.quadratic.map (fun kv => (kv.1, 4 * kv.2)),
      m.offset + Dict.sumValues m.quadratic - Dict.sumValues m.linear,
      .BINARY, A1⟩ hnl2 hq4
  have hbts : _binary_to_spin ⟨nl, m.quadratic.map (fun kv => (kv.1, 4 * kv.2)),
      m.offset + Dict.sumValues m.quadratic - Dict.sumValues m.linear,
      .BINARY, A1⟩ = .ok (h2l,
        (m.quadratic.map (fun kv => (kv.1, 4 * kv.2))).map
          (fun kv => (kv.1, (1 / 4 : ℚ) * kv.2)),
        (m.offset + Dict.sumValues m.quadratic - Dict.sumValues m.linear) +
          (1 / 2 : ℚ) * Dict.sumValues nl + (1 / 4 : ℚ) * Dict.sumValues
            (m.quadratic.map (fun kv => (kv.1, 4 * kv.2)))) := hbts0
  have hkeys2 : Dict.keys h2l = Dict.keys nl := hkeys20
  have hlook2 : ∀ x, Dict.lookup h2l x = (Dict.lookup nl x).map
      (fun t => (1 / 2 : ℚ) * t + (1 / 4 : ℚ) * incSum
        (m.quadratic.map (fun kv => (kv.1, 4 * kv.2))) x) := hlook20
  have hlfin : ∀ x, Dict.lookup h2l x = Dict.lookup m.linear x := by
    intro x
    rw [hlook2 x, hlook x]
    simp only [incSum_mapMul]
    cases Dict.lookup m.linear x with
    | none => rfl
    | some t =>
      simp only [Option.map_some']
      exact congrArg some (by ring)
  have hkall : Dict.keys h2l = Dict.keys m.linear := by
    rw [hkeys2, hkeys]
  have hne : h2l = m.linear :=
    Dict.ext_of_keys_lookup hkall (by rw [hkall]; exact hn) hlfin
  have hquadfin : (m.quadratic.map (fun kv => (kv.1, 4 * kv.2))).map
      (fun kv => (kv.1, (1 / 4 : ℚ) * kv.2)) = m.quadratic := by
    rw [List.map_map]
    refine listMapId _ _ (fun kv _ => ?_)
    show ((kv.1, (1 / 4 : ℚ) * (4 * kv.2)) : (Nat × Nat) × ℚ) = kv
    rw [show (1 / 4 : ℚ) * (4 * kv.2) = kv.2 from by ring]
  have hofffin : (m.offset + Dict.sumValues m.quadratic -
        Dict.sumValues m.linear) + (1 / 2 : ℚ) * Dict.sumValues nl +
        (1 / 4 : ℚ) * Dict.sumValues
          (m.quadratic.map (fun kv => (kv.1, 4 * kv.2))) = m.offset := by
    rw [hsum, Dict.sumValues_mapMul]
    ring
  have h2 : change_vartype ⟨nl, m.quadratic.map (fun kv => (kv.1, 4 * kv.2)),
      m.offset + Dict.sumValues m.quadratic - Dict.sumValues m.linear,
      .BINARY, A1⟩ (.tok .SPIN) = .ok m := by
    rw [change_vartype_eq]
    rw [show normalizeVartype (.tok .SPIN) = .ok Vartype.SPIN from rfl]
    simp only [exceptBind_ok]
    rw [if_neg (show ¬(Vartype.SPIN = Vartype.BINARY) from by decide),
      if_neg (show ¬(Vartype.BINARY = Vartype.SPIN ∧
        Vartype.SPIN = Vartype.BINARY) from by decide),
      if_pos (⟨trivial, trivial⟩ : True ∧ True), hbts]
    simp only [exceptBind_ok]
    rw [hne, hquadfin, hofffin, ← hs]
    exact hv
  rw [h1]
  simp only [exceptBind_ok]
  exact h2

end BinaryQuadraticModel

namespace BinaryQuadraticModel

/-- BINARY → SPIN → BINARY through `change_vartype` reproduces the model
exactly: the rational arithmetic is exact, so the round trip is the
identity on valid BINARY models. -/
theorem roundtrip_binary (m : BinaryQuadraticModel)
    (hn : (Dict.keys m.linear).Nodup) (hq : goodQuad m.linear m.quadratic)
    (hv : Valid m) (hs : m.vartype = .BINARY) :
    (change_vartype m (.tok .SPIN) >>= fun ms =>
      change_vartype ms (.tok .BINARY)) = .ok m := by
  obtain ⟨hlin, hbtsm, hkeysm, hlookm, hsumm⟩ := bts_full m hn hq
  have hmemh : ∀ x, Dict.member hlin x = Dict.member m.linear x := by
    intro x
    have h1 : Dict.member hlin x = true ↔ Dict.member m.linear x = true := by
      rw [Dict.member_iff_mem_keys, Dict.member_iff_mem_keys, hkeysm]
    cases hb : Dict.member m.linear x with
    | true => exact h1.mpr hb
    | false =>
      cases hc : Dict.member hlin x with
      | false => rfl
      | true =>
        rw [hb] at h1
        exact absurd (h1.mp hc) Bool.false_ne_true
  have hqQ : goodQuad hlin
      (m.quadratic.map (fun kv => (kv.1, (1 / 4 : ℚ) * kv.2))) :=
    goodQuad_map m.linear hlin m.quadratic (1 / 4) hmemh hq
  obtain ⟨A1, hinit1⟩ := bqmInit_ok hlin
    (m.quadratic.map (fun kv => (kv.1, (1 / 4 : ℚ) * kv.2)))
    (m.offset + (1 / 2 : ℚ) * Dict.sumValues m.linear +
      (1 / 4 : ℚ) * Dict.sumValues m.quadratic)
    .SPIN hqQ
  have h1 : change_vartype m (.tok .SPIN) =
      .ok ⟨hlin, m.quadratic.map (fun kv => (kv.1, (1 / 4 : ℚ) * kv.2)),
        m.offset + (1 / 2 : ℚ) * Dict.sumValues m.linear +
          (1 / 4 : ℚ) * Dict.sumValues m.quadratic,
        .SPIN, A1⟩ := by
    rw [change_vartype_eq]
    rw [show normalizeVartype (.tok .SPIN) = .ok Vartype.SPIN from rfl]
    simp only [exceptBind_ok]
    have hcne : ¬(Vartype.SPIN = m.vartype) := by
      rw [hs]
      decide
    have hcne2 : ¬(m.vartype = Vartype.SPIN ∧ Vartype.SPIN = Vartype.BINARY) := by
      rw [hs]
      decide
    rw [if_neg hcne, if_neg hcne2,
      if_pos (⟨hs, trivial⟩ : m.vartype = Vartype.BINARY ∧ True), hbtsm]
    simp only [exceptBind_ok]
    exact hinit1
  have hhl2 : (Dict.keys hlin).Nodup := by
    rw [hkeysm]
    exact hn
  obtain ⟨nl2, hstb0, hkeys20, hlook20, hsum20⟩ :=
    stb_full ⟨hlin, m.quadratic.map (fun kv => (kv.1, (1 / 4 : ℚ) * kv.2)),
      m.offset + (1 / 2 : ℚ) * Dict.sumValues m.linear +
        (1 / 4 : ℚ) * Dict.sumValues m.quadratic,
      .SPIN, A1⟩ hhl2 hqQ
  have hstb2 : _spin_to_binary ⟨hlin,
      m.quadratic.map (fun kv => (kv.1, (1 / 4 : ℚ) * kv.2)),
      m.offset + (1 / 2 : ℚ) * Dict.sumValues m.linear +
        (1 / 4 : ℚ) * Dict.sumValues m.quadratic,
      .SPIN, A1⟩ = .ok (nl2,
        (m.quadratic.map (fun kv => (kv.1, (1 / 4 : ℚ) * kv.2))).map
          (fun kv => (kv.1, 4 * kv.2)),
        (m.offset + (1 / 2 : ℚ) * Dict.sumValues m.linear +
          (1 / 4 : ℚ) * Dict.sumValues m.quadratic) +
          Dict.sumValues (m.quadratic.map (fun kv => (kv.1, (1 / 4 : ℚ) * kv.2))) -
          Dict.sumValues hlin) := hstb0
  have hkeys2 : Dict.keys nl2 = Dict.keys hlin := hkeys20
  have hlook2 : ∀ x, Dict.lookup nl2 x = (Dict.lookup hlin x).map
      (fun t => 2 * t - 2 * incSum
        (m.quadratic.map (fun kv => (kv.1, (1 / 4 : ℚ) * kv.2))) x) := hlook20
  have hlfin : ∀ x, Dict.lookup nl2 x = Dict.lookup m.linear x := by
    intro x
    rw [hlook2 x, hlookm x]
    simp only [incSum_mapMul]
    cases Dict.lookup m.linear x with
    | none => rfl
    | some t =>
      simp only [Option.map_some']
      exact congrArg some (by ring)
  have hkall : Dict.keys nl2 = Dict.keys m.linear := by
    rw [hkeys2, hkeysm]
  have hne : nl2 = m.linear :=
    Dict.ext_of_keys_lookup hkall (by rw [hkall]; exact hn) hlfin
  have hquadfin : (m.quadratic.map (fun kv => (kv.1, (1 / 4 : ℚ) * kv.2))).map
      (fun kv => (kv.1, 4 * kv.2)) = m.quadratic := by
    rw [List.map_map]
    refine listMapId _ _ (fun kv _ => ?_)
    show ((kv.1, 4 * ((1 / 4 : ℚ) * kv.2)) : (Nat × Nat) × ℚ) = kv
    rw [show 4 * ((1 / 4 : ℚ) * kv.2) = kv.2 from by ring]
  have hofffin : (m.offset + (1 / 2 : ℚ) * Dict.sumValues m.linear +
        (1 / 4 : ℚ) * Dict.sumValues m.quadratic) +
        Dict.sumValues (m.quadratic.map (fun kv => (kv.1, (1 / 4 : ℚ) * kv.2))) -
        Dict.sumValues hlin = m.offset := by
    rw [hsumm, Dict.sumValues_mapMul]
    ring
  have h2 : change_vartype ⟨hlin,
      m.quadratic.map (fun kv => (kv.1, (1 / 4 : ℚ) * kv.2)),
      m.offset + (1 / 2 : ℚ) * Dict.sumValues m.linear +
        (1 / 4 : ℚ) * Dict.sumValues m.quadratic,
      .SPIN, A1⟩ (.tok .BINARY) = .ok m := by
    rw [change_vartype_eq]
    rw [show normalizeVartype (.tok .BINARY) = .ok Vartype.BINARY from rfl]
    simp only [exceptBind_ok]
    rw [if_neg (show ¬(Vartype.BINARY = Vartype.SPIN) from by decide),
      if_pos (⟨trivial, trivial⟩ : True ∧ True), hstb2]
    simp only [exceptBind_ok]
    rw [hne, hquadfin, hofffin, ← hs]
    exact hv
  rw [h1]
  simp only [exceptBind_ok]
  exact h2

end BinaryQuadraticModel

namespace BinaryQuadraticModel

/-- C1: for every well-formed model, converting to the opposite vartype
with `change_vartype` and back yields a model (in fact the original model
itself, since the rational arithmetic of `_spin_to_binary` and
`_binary_to_spin` is exact) whose `energy` agrees with the original on
every assignment, in both directions SPIN→BINARY→SPIN and
BINARY→SPIN→BINARY. -/
theorem claim_C1_roundtrip (m : BinaryQuadraticModel) (hw : WfBQM m) :
    (m.vartype = .SPIN →
      ∃ m', (change_vartype m (.tok .BINARY) >>= fun mb =>
          change_vartype mb (.tok .SPIN)) = .ok m' ∧
        ∀ sample, energy m' sample = energy m sample) ∧
    (m.vartype = .BINARY →
      ∃ m', (change_vartype m (.tok .SPIN) >>= fun ms =>
          change_vartype ms (.tok .BINARY)) = .ok m' ∧
        ∀ sample, energy m' sample = energy m sample) := by
  obtain ⟨hn, hq, hv⟩ := hw
  exact ⟨fun hs => ⟨m, roundtrip_spin m hn hq hv hs, fun _ => rfl⟩,
    fun hb => ⟨m, roundtrip_binary m hn hq hv hb, fun _ => rfl⟩⟩

/-- Witness for C1 at the concrete SPIN model `modelD` and the concrete
BINARY model `modelC`. -/
theorem claim_C1_witness :
    (∃ m', (change_vartype modelD (.tok .BINARY) >>= fun mb =>
        change_vartype mb (.tok .SPIN)) = .ok m' ∧
      ∀ sample, energy m' sample = energy modelD sample) ∧
    (∃ m', (change_vartype modelC (.tok .SPIN) >>= fun ms =>
        change_vartype ms (.tok .BINARY)) = .ok m' ∧
      ∀ sample, energy m' sample = energy modelC sample) :=
  ⟨(claim_C1_roundtrip modelD ⟨by decide, by decide, rfl⟩).1 rfl,
   (claim_C1_roundtrip modelC ⟨by decide, by decide, rfl⟩).2 rfl⟩

end BinaryQuadraticModel
